import Mathlib

/-!
Verification of the gridpath-ai core against its specification.

The Python sources are shallowly embedded: pure functions become Lean
functions, the mutable grid becomes explicit state passing, machine
integers become `Int`/`Nat`, fallible operations return `Except`, and
random draws become explicit oracle parameters.
-/

namespace GridPathAI

/-- A board position `(row, col)`, as in the Python tuples. -/
abbrev Pos := Int × Int

/-- Manhattan distance `abs(r1-r2) + abs(c1-c2)` used as the A* heuristic
and by the greedy agent (src/game.py). -/
def manhattan (a b : Pos) : Nat :=
  (a.1 - b.1).natAbs + (a.2 - b.2).natAbs

/-- Two cells are 4-adjacent when their Manhattan distance is 1. -/
def adj (a b : Pos) : Prop := manhattan a b = 1

instance (a b : Pos) : Decidable (adj a b) := by unfold adj; infer_instance

/- ### Area (src/area.py) -/

/-- `Area` from src/area.py: an M x N grid backed by a list of rows. -/
structure Area (α : Type) where
  rows : Nat
  cols : Nat
  grid : List (List α)

/-- Well-formedness that `Area.__init__` establishes: the backing list
has `rows` rows, each of length `cols`. -/
def Area.WF {α : Type} (a : Area α) : Prop :=
  a.grid.length = a.rows ∧ ∀ r ∈ a.grid, r.length = a.cols

/-- `Area.__init__(M, N, default_value)`: raises `ValueError` unless both
dimensions are positive (src/area.py lines 16-32). -/
def Area.init (α : Type) (M N : Int) (default_value : α) : Except String (Area α) :=
  if 0 < M ∧ 0 < N then
    Except.ok ⟨M.toNat, N.toNat, List.replicate M.toNat (List.replicate N.toNat default_value)⟩
  else
    Except.error "Area dimensions M and N must be positive integers."

/-- `Area.set_cell(row, col, value)`: raises `IndexError` when the
coordinates are out of `[0, rows) x [0, cols)` (src/area.py lines 44-58). -/
def Area.set_cell {α : Type} (a : Area α) (row col : Int) (value : α) :
    Except String (Area α) :=
  if 0 ≤ row ∧ row < (a.rows : Int) ∧ 0 ≤ col ∧ col < (a.cols : Int) then
    Except.ok { a with
      grid := a.grid.set row.toNat ((a.grid.getD row.toNat []).set col.toNat value) }
  else
    Except.error "Cell coordinates are out of bounds."

/-- `Area.get_cell(row, col)`: raises `IndexError` when the coordinates
are out of `[0, rows) x [0, cols)` (src/area.py lines 60-76). -/
def Area.get_cell {α : Type} (a : Area α) (row col : Int) : Except String α :=
  if 0 ≤ row ∧ row < (a.rows : Int) ∧ 0 ≤ col ∧ col < (a.cols : Int) then
    match (a.grid.getD row.toNat []).get? col.toNat with
    | some v => Except.ok v
    | none => Except.error "Cell coordinates are out of bounds."
  else
    Except.error "Cell coordinates are out of bounds."

theorem Area.init_WF {α : Type} (M N : Int) (d : α) (a : Area α)
    (h : Area.init α M N d = Except.ok a) : a.WF := by
  unfold Area.init at h
  split at h
  · cases h
    constructor
    · simp
    · intro r hr
      simp only [List.eq_of_mem_replicate hr]
      simp
  · cases h

theorem Area.get_cell_ok_of_WF {α : Type} (a : Area α) (row col : Int)
    (hWF : a.WF) (hin : 0 ≤ row ∧ row < (a.rows : Int) ∧ 0 ≤ col ∧ col < (a.cols : Int)) :
    ∃ v, a.get_cell row col = Except.ok v := by
  unfold Area.get_cell
  rw [if_pos hin]
  obtain ⟨hlen, hrows⟩ := hWF
  have hr : row.toNat < a.grid.length := by
    rw [hlen]; omega
  have hrowmem : a.grid.getD row.toNat [] ∈ a.grid := by
    have : a.grid.getD row.toNat [] = a.grid[row.toNat] := by
      simp [List.getD_eq_getElem?_getD, List.getElem?_eq_getElem hr]
    rw [this]
    exact a.grid.getElem_mem hr
  have hc : col.toNat < (a.grid.getD row.toNat []).length := by
    rw [hrows _ hrowmem]; omega
  have : (a.grid.getD row.toNat []).get? col.toNat =
      some ((a.grid.getD row.toNat [])[col.toNat]) := by
    simp [List.get?_eq_getElem?, List.getElem?_eq_getElem hc]
  rw [this]
  exact ⟨_, rfl⟩

instance {α : Type} [DecidableEq α] (a : Area α) : Decidable a.WF := by
  unfold Area.WF; infer_instance

theorem Area.set_preserves_WF {α : Type} (a : Area α) (row col : Int) (v : α)
    (hWF : a.WF) (hin : 0 ≤ row ∧ row < (a.rows : Int) ∧ 0 ≤ col ∧ col < (a.cols : Int)) :
    Area.WF { a with
      grid := a.grid.set row.toNat ((a.grid.getD row.toNat []).set col.toNat v) } := by
  obtain ⟨hlen, hrows⟩ := hWF
  refine ⟨by simpa using hlen, ?_⟩
  intro r hr
  rcases List.mem_or_eq_of_mem_set hr with h | h
  · exact hrows _ h
  · subst h
    rw [List.length_set]
    have hrn : row.toNat < a.grid.length := by rw [hlen]; omega
    have hmem : a.grid.getD row.toNat [] ∈ a.grid := by
      have : a.grid.getD row.toNat [] = a.grid[row.toNat] := by
        simp [List.getD_eq_getElem?_getD, List.getElem?_eq_getElem hrn]
      rw [this]
      exact a.grid.getElem_mem hrn
    exact hrows _ hmem

/-- Helper: the in-bounds row of a well-formed area, as read through `getD`. -/
theorem Area.getD_set_self {α : Type} (g : List (List α)) (i : Nat) (r : List α)
    (h : i < g.length) : (g.set i r).getD i [] = r := by
  simp [List.getD_eq_getElem?_getD, List.getElem?_set_self (by simpa using h)]

/-- C8: `Area(M, N, default)` fails exactly when `M ≤ 0` or `N ≤ 0`, and on a
well-formed area `get_cell`/`set_cell` fail exactly when `(row, col)` is outside
`[0, rows) x [0, cols)` — coordinates are never silently clamped. -/
theorem C8_area_bounds_checked (α : Type) (M N : Int) (d : α) (a : Area α)
    (row col : Int) (v : α) (hWF : a.WF) :
    ((∃ e, Area.init α M N d = Except.error e) ↔ (M ≤ 0 ∨ N ≤ 0))
    ∧ ((∃ e, a.set_cell row col v = Except.error e) ↔
        ¬(0 ≤ row ∧ row < (a.rows : Int) ∧ 0 ≤ col ∧ col < (a.cols : Int)))
    ∧ ((∃ e, a.get_cell row col = Except.error e) ↔
        ¬(0 ≤ row ∧ row < (a.rows : Int) ∧ 0 ≤ col ∧ col < (a.cols : Int))) := by
  refine ⟨?_, ?_, ?_⟩
  · unfold Area.init
    split
    · rename_i h
      simp only [iff_def]
      constructor
      · rintro ⟨e, he⟩; cases he
      · intro h2; omega
    · rename_i h
      constructor
      · intro _; omega
      · intro _; exact ⟨_, rfl⟩
  · unfold Area.set_cell
    split
    · rename_i h
      constructor
      · rintro ⟨e, he⟩; cases he
      · intro h2; exact absurd h h2
    · rename_i h
      exact ⟨fun _ => h, fun _ => ⟨_, rfl⟩⟩
  · constructor
    · rintro ⟨e, he⟩ hin
      obtain ⟨w, hw⟩ := Area.get_cell_ok_of_WF a row col hWF hin
      rw [hw] at he; cases he
    · intro h
      unfold Area.get_cell
      rw [if_neg h]
      exact ⟨_, rfl⟩

/-- Witness for C8 on a concrete well-formed 2x2 area. -/
theorem C8_area_bounds_checked_witness :
    Area.WF ({ rows := 2, cols := 2, grid := [[0, 0], [0, 0]] } : Area Nat)
    ∧ (((∃ e, Area.init Nat (-1) 2 7 = Except.error e) ↔ ((-1 : Int) ≤ 0 ∨ (2 : Int) ≤ 0))
      ∧ ((∃ e, Area.set_cell ({ rows := 2, cols := 2, grid := [[0, 0], [0, 0]] } : Area Nat)
            2 0 7 = Except.error e) ↔
          ¬(0 ≤ (2 : Int) ∧ (2 : Int) < ((2 : Nat) : Int) ∧ 0 ≤ (0 : Int)
            ∧ (0 : Int) < ((2 : Nat) : Int)))
      ∧ ((∃ e, Area.get_cell ({ rows := 2, cols := 2, grid := [[0, 0], [0, 0]] } : Area Nat)
            2 0 = Except.error e) ↔
          ¬(0 ≤ (2 : Int) ∧ (2 : Int) < ((2 : Nat) : Int) ∧ 0 ≤ (0 : Int)
            ∧ (0 : Int) < ((2 : Nat) : Int)))) :=
  ⟨by decide,
   C8_area_bounds_checked Nat (-1) 2 7 { rows := 2, cols := 2, grid := [[0, 0], [0, 0]] }
     2 0 7 (by decide)⟩

/-- C9: on a well-formed area, an in-bounds `set_cell(row, col, v)` succeeds,
changes only that one cell (rows, cols and every other coordinate unchanged),
and a subsequent `get_cell(row, col)` returns exactly `v`. -/
theorem C9_set_cell_frame (α : Type) (a : Area α) (row col : Int) (v : α)
    (hWF : a.WF)
    (hin : 0 ≤ row ∧ row < (a.rows : Int) ∧ 0 ≤ col ∧ col < (a.cols : Int)) :
    ∃ a2, a.set_cell row col v = Except.ok a2
      ∧ a2.rows = a.rows ∧ a2.cols = a.cols ∧ a2.WF
      ∧ a2.get_cell row col = Except.ok v
      ∧ ∀ r2 c2 : Int, ¬(r2 = row ∧ c2 = col) → a2.get_cell r2 c2 = a.get_cell r2 c2 := by
  obtain ⟨hlen, hrows⟩ := hWF
  have hrn : row.toNat < a.grid.length := by rw [hlen]; omega
  have hmem : a.grid.getD row.toNat [] ∈ a.grid := by
    have : a.grid.getD row.toNat [] = a.grid[row.toNat] := by
      simp [List.getD_eq_getElem?_getD, List.getElem?_eq_getElem hrn]
    rw [this]
    exact a.grid.getElem_mem hrn
  have hcn : col.toNat < (a.grid.getD row.toNat []).length := by
    rw [hrows _ hmem]; omega
  refine ⟨{ a with
      grid := a.grid.set row.toNat ((a.grid.getD row.toNat []).set col.toNat v) },
    by unfold Area.set_cell; rw [if_pos hin], rfl, rfl,
    Area.set_preserves_WF a row col v ⟨hlen, hrows⟩ hin, ?_, ?_⟩
  · unfold Area.get_cell
    rw [if_pos hin]
    have h1 : ((a.grid.set row.toNat ((a.grid.getD row.toNat []).set col.toNat v)).getD
        row.toNat []) = (a.grid.getD row.toNat []).set col.toNat v :=
      Area.getD_set_self _ _ _ hrn
    rw [h1, List.get?_eq_getElem?, List.getElem?_set_self (by simpa using hcn)]
  · intro r2 c2 hne
    unfold Area.get_cell
    by_cases hin2 : 0 ≤ r2 ∧ r2 < (a.rows : Int) ∧ 0 ≤ c2 ∧ c2 < (a.cols : Int)
    · rw [if_pos hin2, if_pos hin2]
      by_cases hr2 : r2 = row
      · subst hr2
        have hc2 : c2.toNat ≠ col.toNat := by omega
        have h1 : ((a.grid.set r2.toNat ((a.grid.getD r2.toNat []).set col.toNat v)).getD
            r2.toNat []) = (a.grid.getD r2.toNat []).set col.toNat v :=
          Area.getD_set_self _ _ _ hrn
        rw [h1, List.get?_eq_getElem?, List.get?_eq_getElem?,
          List.getElem?_set_ne (fun h => hc2 h.symm)]
      · have hr2n : row.toNat ≠ r2.toNat := by omega
        have h1 : ((a.grid.set row.toNat ((a.grid.getD row.toNat []).set col.toNat v)).getD
            r2.toNat []) = a.grid.getD r2.toNat [] := by
          simp [List.getD_eq_getElem?_getD, List.getElem?_set_ne hr2n]
        rw [h1]
    · rw [if_neg hin2, if_neg hin2]

/-- Witness for C9: setting cell (0, 1) of a concrete 2x2 area. -/
theorem C9_set_cell_frame_witness :
    Area.WF ({ rows := 2, cols := 2, grid := [[0, 0], [0, 0]] } : Area Nat)
    ∧ (0 ≤ (0 : Int) ∧ (0 : Int) < ((2 : Nat) : Int) ∧ 0 ≤ (1 : Int)
        ∧ (1 : Int) < ((2 : Nat) : Int))
    ∧ ∃ a2, Area.set_cell ({ rows := 2, cols := 2, grid := [[0, 0], [0, 0]] } : Area Nat)
          0 1 9 = Except.ok a2
      ∧ a2.rows = 2 ∧ a2.cols = 2 ∧ a2.WF
      ∧ a2.get_cell 0 1 = Except.ok 9
      ∧ ∀ r2 c2 : Int, ¬(r2 = 0 ∧ c2 = 1) →
          a2.get_cell r2 c2 =
            Area.get_cell ({ rows := 2, cols := 2, grid := [[0, 0], [0, 0]] } : Area Nat) r2 c2 :=
  ⟨by decide, by decide,
   C9_set_cell_frame Nat { rows := 2, cols := 2, grid := [[0, 0], [0, 0]] } 0 1 9
     (by decide) (by decide)⟩

/- ### Grid context, walkability and walks -/

/-- The inputs the pathfinding and agent code read from the `Game` object:
grid dimensions, cell contents, and the `non_walkable` tile set
(as a membership test). -/
structure GridCtx where
  rows : Nat
  cols : Nat
  cell : Pos → Char
  nonWalkable : Char → Bool

/-- The neighbor admission test used throughout src/game.py:
`0 <= r < rows and 0 <= c < cols and get_cell(r, c) not in non_walkable`. -/
def GridCtx.passable (G : GridCtx) (p : Pos) : Bool :=
  decide (0 ≤ p.1) && decide (p.1 < (G.rows : Int)) &&
  decide (0 ≤ p.2) && decide (p.2 < (G.cols : Int)) && !(G.nonWalkable (G.cell p))

/-- A legal walk from `s`: each successive position is 4-adjacent to the
previous one and passable. -/
def ValidSeq (G : GridCtx) : Pos → List Pos → Prop
  | _, [] => True
  | s, q :: rest => adj s q ∧ G.passable q = true ∧ ValidSeq G q rest

/-- The end position of a walk starting at `s`. -/
def lastPos (s : Pos) (l : List Pos) : Pos := l.getLastD s

/-- There is a walk of exactly `n` steps from `s` to `t`. -/
def ReachN (G : GridCtx) (s t : Pos) (n : Nat) : Prop :=
  ∃ l, ValidSeq G s l ∧ lastPos s l = t ∧ l.length = n

/-- Some 4-connected walkable path from `s` to `t` exists. -/
def Reachable (G : GridCtx) (s t : Pos) : Prop := ∃ n, ReachN G s t n

/-- `n` is the length of the true shortest 4-connected walkable path from
`s` to `t` (the brute-force BFS distance). -/
def IsShortest (G : GridCtx) (s t : Pos) (n : Nat) : Prop :=
  ReachN G s t n ∧ ∀ m, ReachN G s t m → n ≤ m

/- ### A* pathfinding (src/game.py lines 171-218) -/

/-- The neighbor offsets `[(-1, 0), (1, 0), (0, -1), (0, 1)]`. -/
def astarOffsets : List Pos := [(-1, 0), (1, 0), (0, -1), (0, 1)]

/-- Python tuple comparison on heap entries `(f_score, (row, col))`:
`heapq` always pops a minimal entry in this lexicographic order. -/
def entryLE (e1 e2 : Nat × Pos) : Prop :=
  e1.1 < e2.1 ∨ (e1.1 = e2.1 ∧
    (e1.2.1 < e2.2.1 ∨ (e1.2.1 = e2.2.1 ∧ e1.2.2 ≤ e2.2.2)))

instance (e1 e2 : Nat × Pos) : Decidable (entryLE e1 e2) := by
  unfold entryLE; infer_instance

/-- `heapq.heappop`: remove and return a minimal entry of the heap
(the heap is modelled as a plain list with multiset semantics). -/
def popMin : List (Nat × Pos) → Option ((Nat × Pos) × List (Nat × Pos))
  | [] => none
  | e :: es =>
    match popMin es with
    | none => some (e, [])
    | some (m, rest) => if entryLE e m then some (e, es) else some (m, e :: rest)

/-- The A* loop state: the open heap, `came_from` and `g_score` maps. -/
structure AState where
  openSet : List (Nat × Pos)
  cameFrom : Pos → Option Pos
  gScore : Pos → Option Nat

/-- One neighbor relaxation of `_a_star_pathfinding` (src/game.py lines
189-199): skip out-of-bounds / non-walkable neighbors, and update
`came_from`, `g_score` and the heap only when a strictly smaller tentative
g is found.  `g_score[current]` is always present when this runs (an
invariant proved below), so the `getD 0` default is never taken. -/
def relaxNeighbor (G : GridCtx) (goal current neighbor : Pos) (st : AState) : AState :=
  if G.passable neighbor then
    let tentative := (st.gScore current).getD 0 + 1
    let doUpdate : Bool :=
      match st.gScore neighbor with
      | some old => decide (tentative < old)
      | none => true
    if doUpdate then
      { openSet := (tentative + manhattan neighbor goal, neighbor) :: st.openSet,
        cameFrom := fun q => if q = neighbor then some current else st.cameFrom q,
        gScore := fun q => if q = neighbor then some tentative else st.gScore q }
    else st
  else st

/-- The `for dr, dc in [(-1,0),(1,0),(0,-1),(0,1)]` loop body. -/
def expandNeighbors (G : GridCtx) (goal current : Pos) (st : AState) : AState :=
  astarOffsets.foldl
    (fun s d => relaxNeighbor G goal current (current.1 + d.1, current.2 + d.2) s) st

/-- `Game._reconstruct_path`: walk the predecessor map from the goal back
to the start, building the path front-first (src/game.py lines 202-218).
The fuel argument only bounds the chain length; it is always sufficient. -/
def reconstructPath (cameFrom : Pos → Option Pos) : Nat → Pos → List Pos
  | 0, current => [current]
  | fuel + 1, current =>
    match cameFrom current with
    | none => [current]
    | some prev => reconstructPath cameFrom fuel prev ++ [current]

/-- An iteration budget that provably dominates the A* loop's run time. -/
def aStarFuel (G : GridCtx) : Nat := (G.rows * G.cols + 2) * (G.rows * G.cols + 2)

/-- The `while open_set:` loop of `_a_star_pathfinding`.  The outer `none`
means the fuel ran out, which is proved impossible below. -/
def astarLoop (G : GridCtx) (goal : Pos) (include_start : Bool) :
    Nat → AState → Option (Option (List Pos))
  | 0, _ => none
  | fuel + 1, st =>
    match popMin st.openSet with
    | none => some none
    | some ((_, current), rest) =>
      if current = goal then
        let path := reconstructPath st.cameFrom (aStarFuel G) current
        some (some (if include_start then path else path.tail))
      else
        astarLoop G goal include_start fuel
          (expandNeighbors G goal current { st with openSet := rest })

/-- The initial A* state: heap `[(h(start), start)]`, empty `came_from`,
`g_score = {start: 0}`. -/
def initialState (G : GridCtx) (start goal : Pos) : AState :=
  { openSet := [(manhattan start goal, start)],
    cameFrom := fun _ => none,
    gScore := fun q => if q = start then some 0 else none }

/-- `Game._a_star_pathfinding(start, goal, include_start)` (src/game.py
lines 171-200).  The loop provably returns within `aStarFuel` iterations,
so the `join` never conflates fuel exhaustion with "no path". -/
def a_star_pathfinding (G : GridCtx) (start goal : Pos) (include_start : Bool) :
    Option (List Pos) :=
  (astarLoop G goal include_start (aStarFuel G) (initialState G start goal)).join

theorem reconstructPath_no_parent (fuel : Nat) (p : Pos) :
    reconstructPath (fun _ => none) fuel p = [p] := by
  cases fuel <;> rfl

/-- C10: calling `_a_star_pathfinding(p, p, include_start)` with start equal
to goal succeeds on any grid and for any `p` (walkable or not): the first
popped node is already the goal, so the search returns the reconstructed
trivial path — `[p]` when `include_start` is true and `[]` otherwise. -/
theorem C10_astar_start_eq_goal (G : GridCtx) (p : Pos) (include_start : Bool) :
    a_star_pathfinding G p p include_start =
      some (if include_start then [p] else []) := by
  unfold a_star_pathfinding initialState
  have hpos : 0 < aStarFuel G := by
    unfold aStarFuel; exact Nat.mul_pos (by omega) (by omega)
  obtain ⟨fuel, hfuel⟩ : ∃ fuel, aStarFuel G = fuel + 1 := ⟨aStarFuel G - 1, by omega⟩
  rw [hfuel]
  cases include_start <;> simp [astarLoop, popMin, reconstructPath_no_parent]

/- ### Greedy agent (src/game.py lines 124-169) -/

/-- The fixed configuration of one `Game` run: dimensions, obstacle set and
exit position (all immutable during a run). -/
structure GameCfg where
  rows : Nat
  cols : Nat
  nonWalkable : Char → Bool
  exit_pos : Pos

/-- The grid context the agents see, given the current cell contents. -/
def GameCfg.ctx (cfg : GameCfg) (cellF : Pos → Char) : GridCtx :=
  ⟨cfg.rows, cfg.cols, cellF, cfg.nonWalkable⟩

/-- `Game._move_player_to` (src/game.py lines 241-251): the old player cell
is overwritten with the visited marker, the new cell with the player marker
(in that order, so the new position wins when they coincide). -/
def movePlayerCells (cellF : Pos → Char) (old new : Pos) : Pos → Char :=
  fun q => if q = new then 'P' else if q = old then 'V' else cellF q

/-- The neighbor list `[(r-1, c), (r+1, c), (r, c-1), (r, c+1)]` scanned by
the greedy agent. -/
def greedyNeighbors (p : Pos) : List Pos :=
  [(p.1 - 1, p.2), (p.1 + 1, p.2), (p.1, p.2 - 1), (p.1, p.2 + 1)]

/-- One iteration of the `for n_r, n_c in neighbors` loop of
`_get_best_move_greedy`: keep the first strictly-closer walkable neighbor
(`none` models `best_move = None, min_dist = inf`). -/
def greedyStep (G : GridCtx) (exit_pos : Pos) (acc : Option (Pos × Nat)) (n : Pos) :
    Option (Pos × Nat) :=
  if G.passable n then
    let dist := manhattan n exit_pos
    match acc with
    | none => some (n, dist)
    | some (_, minDist) => if dist < minDist then some (n, dist) else acc
  else acc

/-- `Game._get_best_move_greedy` (src/game.py lines 150-169). -/
def bestMoveGreedy (G : GridCtx) (exit_pos player_pos : Pos) : Option Pos :=
  ((greedyNeighbors player_pos).foldl (greedyStep G exit_pos) none).map Prod.fst

/-- The `run_greedy_ai` loop (src/game.py lines 124-136), headless: each
tick computes the greedy move, applies `_move_player_to`, and stops with the
tick count once the player stands on the exit.  `none` covers both the
`break` on a stuck agent and fuel exhaustion; the theorems below always
supply sufficient fuel. -/
def runGreedy (cfg : GameCfg) : Nat → (Pos → Char) → Pos → Nat → Option Nat
  | 0, _, _, _ => none
  | fuel + 1, cellF, pos, ticks =>
    match bestMoveGreedy (cfg.ctx cellF) cfg.exit_pos pos with
    | none => none
    | some np =>
      let cellF2 := movePlayerCells cellF pos np
      if np = cfg.exit_pos then some (ticks + 1)
      else runGreedy cfg fuel cellF2 np (ticks + 1)

theorem greedyFold_cases (G : GridCtx) (e : Pos) :
    ∀ (ns : List Pos) (acc : Option (Pos × Nat)),
      ns.foldl (greedyStep G e) acc = acc ∨
        ∃ n ∈ ns, ns.foldl (greedyStep G e) acc = some (n, manhattan n e)
          ∧ G.passable n = true := by
  intro ns
  induction ns with
  | nil => intro acc; exact Or.inl rfl
  | cons n ns ih =>
    intro acc
    rcases ih (greedyStep G e acc n) with h | ⟨m, hm, hres, hp⟩
    · simp only [List.foldl_cons]
      rw [h]
      unfold greedyStep
      split
      · rename_i hp
        match acc with
        | none => exact Or.inr ⟨n, by simp, rfl, hp⟩
        | some (q0, d0) =>
          simp only
          split
          · exact Or.inr ⟨n, by simp, rfl, hp⟩
          · exact Or.inl rfl
      · exact Or.inl rfl
    · exact Or.inr ⟨m, by simp [hm], by simpa using hres, hp⟩

theorem greedyStep_le (G : GridCtx) (e : Pos) (acc : Option (Pos × Nat)) (n q : Pos)
    (dq : Nat) (h : greedyStep G e acc n = some (q, dq)) :
    ∀ q0 d0, acc = some (q0, d0) → dq ≤ d0 := by
  intro q0 d0 hacc
  subst hacc
  unfold greedyStep at h
  split at h
  · simp only at h
    split at h
    · rename_i hlt
      cases h
      omega
    · cases h; exact le_refl _
  · cases h; exact le_refl _

theorem greedyStep_some (G : GridCtx) (e : Pos) (acc : Option (Pos × Nat)) (n q0 : Pos)
    (d0 : Nat) (hacc : acc = some (q0, d0)) :
    ∃ q dq, greedyStep G e acc n = some (q, dq) ∧ dq ≤ d0 := by
  subst hacc
  unfold greedyStep
  split
  · simp only
    split
    · rename_i hlt
      exact ⟨n, _, rfl, by omega⟩
    · exact ⟨q0, d0, rfl, le_refl _⟩
  · exact ⟨q0, d0, rfl, le_refl _⟩

theorem greedyFold_le (G : GridCtx) (e : Pos) :
    ∀ (ns : List Pos) (acc : Option (Pos × Nat)) (q0 : Pos) (d0 : Nat),
      acc = some (q0, d0) →
      ∃ q dq, ns.foldl (greedyStep G e) acc = some (q, dq) ∧ dq ≤ d0 := by
  intro ns
  induction ns with
  | nil => intro acc q0 d0 hacc; exact ⟨q0, d0, by simpa using hacc, le_refl _⟩
  | cons n ns ih =>
    intro acc q0 d0 hacc
    obtain ⟨q1, d1, h1, hle1⟩ := greedyStep_some G e acc n q0 d0 hacc
    obtain ⟨q, dq, hq, hle⟩ := ih (greedyStep G e acc n) q1 d1 h1
    exact ⟨q, dq, by simpa using hq, le_trans hle hle1⟩

theorem greedyFold_covers (G : GridCtx) (e : Pos) :
    ∀ (ns : List Pos) (acc : Option (Pos × Nat)) (n : Pos),
      n ∈ ns → G.passable n = true →
      ∃ q dq, ns.foldl (greedyStep G e) acc = some (q, dq) ∧ dq ≤ manhattan n e := by
  intro ns
  induction ns with
  | nil => intro _ _ h; cases h
  | cons m ns ih =>
    intro acc n hn hp
    rcases List.mem_cons.mp hn with h | h
    · subst h
      have h1 : ∃ q1 d1, greedyStep G e acc n = some (q1, d1) ∧ d1 ≤ manhattan n e := by
        rcases acc with _ | ⟨q0, d0⟩
        · exact ⟨n, _, by simp [greedyStep, hp], le_refl _⟩
        · by_cases hlt : manhattan n e < d0
          · exact ⟨n, _, by simp [greedyStep, hp, hlt], le_refl _⟩
          · exact ⟨q0, d0, by simp [greedyStep, hp, hlt], by omega⟩
      obtain ⟨q1, d1, h1, hle1⟩ := h1
      obtain ⟨q, dq, hq, hle⟩ := greedyFold_le G e ns _ q1 d1 h1
      exact ⟨q, dq, by simpa using hq, le_trans hle hle1⟩
    · obtain ⟨q, dq, hq, hle⟩ := ih (greedyStep G e acc m) n h hp
      exact ⟨q, dq, by simpa using hq, hle⟩

theorem greedyNeighbors_adj (p n : Pos) (h : n ∈ greedyNeighbors p) : adj p n := by
  unfold greedyNeighbors at h
  unfold adj manhattan
  rcases p with ⟨r, c⟩
  fin_cases h <;> simp

theorem greedyNeighbors_dist (p n e : Pos) (h : n ∈ greedyNeighbors p) :
    manhattan p e ≤ manhattan n e + 1 := by
  unfold greedyNeighbors at h
  unfold manhattan
  rcases p with ⟨r, c⟩
  fin_cases h <;> simp <;> omega

/-- If some walkable neighbor attains Manhattan distance `d` to the exit and
no walkable neighbor is closer, the greedy move picks a walkable neighbor at
distance exactly `d`. -/
theorem bestMoveGreedy_spec (G : GridCtx) (e p : Pos) (d : Nat)
    (hex : ∃ n ∈ greedyNeighbors p, G.passable n = true ∧ manhattan n e = d)
    (hmin : ∀ n ∈ greedyNeighbors p, G.passable n = true → d ≤ manhattan n e) :
    ∃ q, bestMoveGreedy G e p = some q ∧ q ∈ greedyNeighbors p
      ∧ G.passable q = true ∧ manhattan q e = d := by
  obtain ⟨n, hn, hp, hd⟩ := hex
  obtain ⟨q, dq, hq, hle⟩ := greedyFold_covers G e (greedyNeighbors p) none n hn hp
  rcases greedyFold_cases G e (greedyNeighbors p) none with h | ⟨m, hm, hres, hpm⟩
  · rw [h] at hq; cases hq
  · rw [hres] at hq
    simp only [Option.some.injEq, Prod.mk.injEq] at hq
    obtain ⟨h1, h2⟩ := hq
    refine ⟨m, ?_, hm, hpm, ?_⟩
    · unfold bestMoveGreedy
      rw [hres]
      rfl
    · have := hmin m hm hpm
      omega

/-- In-bounds predicate for a game configuration. -/
def GameCfg.inB (cfg : GameCfg) (p : Pos) : Prop :=
  0 ≤ p.1 ∧ p.1 < (cfg.rows : Int) ∧ 0 ≤ p.2 ∧ p.2 < (cfg.cols : Int)

theorem passable_ctx_iff (cfg : GameCfg) (cellF : Pos → Char) (q : Pos) :
    (cfg.ctx cellF).passable q = true ↔
      (cfg.inB q ∧ cfg.nonWalkable (cellF q) = false) := by
  simp [GridCtx.passable, GameCfg.ctx, GameCfg.inB, and_assoc]

theorem manhattan_eq_zero (a b : Pos) (h : manhattan a b = 0) : a = b := by
  unfold manhattan at h
  obtain ⟨a1, a2⟩ := a
  obtain ⟨b1, b2⟩ := b
  simp only at h
  have h2 : a1 = b1 ∧ a2 = b2 := by omega
  simp [h2.1, h2.2]

theorem toward_exit (cfg : GameCfg) (pos : Pos) (d : Nat)
    (hd : manhattan pos cfg.exit_pos = d + 1)
    (hpB : cfg.inB pos) (heB : cfg.inB cfg.exit_pos) :
    ∃ n ∈ greedyNeighbors pos, cfg.inB n ∧ manhattan n cfg.exit_pos = d := by
  obtain ⟨h1, h2, h3, h4⟩ := hpB
  obtain ⟨h5, h6, h7, h8⟩ := heB
  unfold manhattan at hd
  rcases lt_trichotomy pos.1 cfg.exit_pos.1 with hr | hr | hr
  · exact ⟨(pos.1 + 1, pos.2), by simp [greedyNeighbors],
      ⟨by omega, by omega, by omega, by omega⟩, by unfold manhattan; simp only; omega⟩
  · rcases lt_trichotomy pos.2 cfg.exit_pos.2 with hc | hc | hc
    · exact ⟨(pos.1, pos.2 + 1), by simp [greedyNeighbors],
        ⟨by omega, by omega, by omega, by omega⟩, by unfold manhattan; simp only; omega⟩
    · exact absurd hd (by omega)
    · exact ⟨(pos.1, pos.2 - 1), by simp [greedyNeighbors],
        ⟨by omega, by omega, by omega, by omega⟩, by unfold manhattan; simp only; omega⟩
  · exact ⟨(pos.1 - 1, pos.2), by simp [greedyNeighbors],
      ⟨by omega, by omega, by omega, by omega⟩, by unfold manhattan; simp only; omega⟩

/-- On an obstacle-free grid the greedy run strictly decreases the Manhattan
distance to the exit by one per tick, reaching the exit after exactly `d`
ticks.  The walkability hypothesis only concerns cells strictly closer than
the player: cells already traversed (overwritten with markers) are never
closer. -/
theorem runGreedy_exact (cfg : GameCfg) (heB : cfg.inB cfg.exit_pos) :
    ∀ (d fuel : Nat) (cellF : Pos → Char) (pos : Pos) (ticks : Nat),
      manhattan pos cfg.exit_pos = d → 1 ≤ d → d ≤ fuel → cfg.inB pos →
      (∀ q : Pos, cfg.inB q → manhattan q cfg.exit_pos < d →
        cfg.nonWalkable (cellF q) = false) →
      runGreedy cfg fuel cellF pos ticks = some (ticks + d) := by
  intro d
  induction d with
  | zero => intro fuel cellF pos ticks _ h1; exact absurd h1 (by omega)
  | succ d ih =>
    intro fuel cellF pos ticks hd hge1 hfuel hpB hwalk
    obtain ⟨f, rfl⟩ : ∃ f, fuel = f + 1 := ⟨fuel - 1, by omega⟩
    obtain ⟨n, hn, hnB, hnd⟩ := toward_exit cfg pos d hd hpB heB
    have hnp : ((cfg.ctx cellF).passable n) = true :=
      (passable_ctx_iff cfg cellF n).mpr ⟨hnB, hwalk n hnB (by omega)⟩
    have hmin : ∀ m ∈ greedyNeighbors pos,
        (cfg.ctx cellF).passable m = true → d ≤ manhattan m cfg.exit_pos := by
      intro m hm _
      have := greedyNeighbors_dist pos m cfg.exit_pos hm
      omega
    obtain ⟨q, hq, hqmem, hqp, hqd⟩ :=
      bestMoveGreedy_spec (cfg.ctx cellF) cfg.exit_pos pos d ⟨n, hn, hnp, hnd⟩ hmin
    unfold runGreedy
    rw [hq]
    dsimp only
    rcases Nat.eq_zero_or_pos d with h0 | hdpos
    · subst h0
      have hqe : q = cfg.exit_pos := manhattan_eq_zero _ _ hqd
      rw [if_pos hqe]
    · have hqe : q ≠ cfg.exit_pos := by
        intro h
        rw [h] at hqd
        unfold manhattan at hqd
        omega
      rw [if_neg hqe]
      have hqB : cfg.inB q := ((passable_ctx_iff cfg cellF q).mp hqp).1
      have hinv : ∀ q2 : Pos, cfg.inB q2 → manhattan q2 cfg.exit_pos < d →
          cfg.nonWalkable (movePlayerCells cellF pos q q2) = false := by
        intro q2 hq2B hq2d
        unfold movePlayerCells
        have hq2q : q2 ≠ q := by
          intro h; rw [h] at hq2d; omega
        have hq2pos : q2 ≠ pos := by
          intro h; rw [h] at hq2d; omega
        rw [if_neg hq2q, if_neg hq2pos]
        exact hwalk q2 hq2B (by omega)
      have := ih f (movePlayerCells cellF pos q) q (ticks + 1) hqd hdpos (by omega) hqB hinv
      rw [this]
      congr 1
      omega

/-- C7 counterexample to the claim as stated: with start = exit the greedy
loop body still runs (`is_done` starts false), so on a 2x2 all-floor grid
with start = exit = (0, 0) the run takes 2 ticks, not
`Manhattan(start, exit) = 0`. -/
theorem C7_greedy_start_eq_exit_counterexample :
    runGreedy ⟨2, 2, (fun ch => ch == 'X'), ((0 : Int), (0 : Int))⟩
        5 (fun _ => '.') ((0 : Int), (0 : Int)) 0 = some 2
    ∧ manhattan ((0 : Int), (0 : Int)) ((0 : Int), (0 : Int)) = 0 := by
  exact ⟨by decide, by decide⟩

/-- C7 (amended: start and exit distinct): on a grid whose in-bounds cells
are all walkable, with start and exit in bounds, the greedy agent — which
each tick moves to the walkable in-bounds neighbor minimising Manhattan
distance to the exit, ties resolving to the first in the scan order up,
down, left, right — reaches the exit in exactly `Manhattan(start, exit)`
ticks. -/
theorem C7_greedy_reaches_in_manhattan_ticks (cfg : GameCfg) (cellF : Pos → Char)
    (start : Pos) (fuel : Nat)
    (hsB : cfg.inB start) (heB : cfg.inB cfg.exit_pos)
    (hwalk : ∀ q : Pos, cfg.inB q → cfg.nonWalkable (cellF q) = false)
    (hne : start ≠ cfg.exit_pos)
    (hfuel : manhattan start cfg.exit_pos ≤ fuel) :
    runGreedy cfg fuel cellF start 0 = some (manhattan start cfg.exit_pos) := by
  have hd1 : 1 ≤ manhattan start cfg.exit_pos := by
    rcases Nat.eq_zero_or_pos (manhattan start cfg.exit_pos) with h0 | h
    · exact absurd (manhattan_eq_zero _ _ h0) hne
    · exact h
  have := runGreedy_exact cfg heB (manhattan start cfg.exit_pos) fuel cellF start 0
    rfl hd1 hfuel hsB (fun q hqB _ => hwalk q hqB)
  simpa using this

/-- Witness for C7 on a concrete 3x3 all-floor grid, start (0,0), exit (2,2). -/
theorem C7_greedy_reaches_witness :
    runGreedy ⟨3, 3, (fun ch => ch == 'X'), ((2 : Int), (2 : Int))⟩
        4 (fun _ => '.') ((0 : Int), (0 : Int)) 0 = some 4 :=
  C7_greedy_reaches_in_manhattan_ticks
    ⟨3, 3, (fun ch => ch == 'X'), ((2 : Int), (2 : Int))⟩
    (fun _ => '.') ((0 : Int), (0 : Int)) 4
    (by refine ⟨by simp, by simp, by simp, by simp⟩)
    (by refine ⟨by simp, by simp, by simp, by simp⟩)
    (fun q _ => rfl)
    (by decide)
    (by decide)

/- ### Wall follower agent (src/src/agents/wall_follower_agent.py) -/

/-- The direction offsets `moves = [(-1,0),(0,1),(1,0),(0,-1)]` (N, E, S, W). -/
def wfMoves : List Pos := [(-1, 0), (0, 1), (1, 0), (0, -1)]

/-- The cell one step from `pos` in direction `d` (`moves[check_dir]`);
directions are always in `[0, 4)`, so the `getD` default is never taken. -/
def wfTarget (pos : Pos) (d : Nat) : Pos :=
  let m := wfMoves.getD d (0, 0)
  (pos.1 + m.1, pos.2 + m.2)

/-- The `for i in range(-1, 2)` loop of `_wall_follower_step` (lines 52-60):
try `check_dir = (dir + i + 4) % 4`; move to the first in-bounds walkable
candidate, updating the facing.  When the list is exhausted, flip the facing
by 180 degrees and stay (lines 62-63). -/
def wallFollowerTry (G : GridCtx) (pos : Pos) (dir : Nat) : List Int → Pos × Nat
  | [] => (pos, (dir + 2) % 4)
  | i :: rest =>
    let check_dir := ((dir : Int) + i + 4).toNat % 4
    let n := wfTarget pos check_dir
    if G.passable n then (n, check_dir)
    else wallFollowerTry G pos dir rest

/-- `WallFollowerAgent._wall_follower_step` (lines 39-63): the Python range
`range(-1, 2)` yields i = -1, 0, 1 only — left, forward, right; the back
direction is never tried as a move.  Returns (new position, new facing). -/
def wallFollowerStep (G : GridCtx) (pos : Pos) (dir : Nat) : Pos × Nat :=
  wallFollowerTry G pos dir [-1, 0, 1]

theorem wallFollowerStep_eq (G : GridCtx) (pos : Pos) (dir : Nat) (hdir : dir < 4) :
    wallFollowerStep G pos dir =
      (if G.passable (wfTarget pos ((dir + 3) % 4)) then
        (wfTarget pos ((dir + 3) % 4), (dir + 3) % 4)
      else if G.passable (wfTarget pos dir) then (wfTarget pos dir, dir)
      else if G.passable (wfTarget pos ((dir + 1) % 4)) then
        (wfTarget pos ((dir + 1) % 4), (dir + 1) % 4)
      else (pos, (dir + 2) % 4)) := by
  have h1 : ((dir : Int) + -1 + 4).toNat % 4 = (dir + 3) % 4 := by omega
  have h2 : ((dir : Int) + 0 + 4).toNat % 4 = dir := by omega
  have h3 : ((dir : Int) + 1 + 4).toNat % 4 = (dir + 1) % 4 := by omega
  simp only [wallFollowerStep, wallFollowerTry, h1, h2, h3]

/-- C5 counterexample to the claim as stated: on a 1x2 all-floor grid with
the player at (0,1) facing East (1), the left, forward and right candidates
are all out of bounds while the back cell (0,0) is in-bounds and walkable;
the claim says the agent moves to (0,0) facing West, but the code flips the
facing to West without moving (the Python loop is `range(-1, 2)`, so the
fourth candidate is never tried). -/
theorem C5_wall_follower_back_never_tried :
    wallFollowerStep ⟨1, 2, (fun _ => '.'), (fun ch => ch == 'X')⟩ ((0 : Int), (1 : Int)) 1
        = (((0 : Int), (1 : Int)), 3)
    ∧ wfTarget ((0 : Int), (1 : Int)) ((1 + 2) % 4) = ((0 : Int), (0 : Int))
    ∧ GridCtx.passable ⟨1, 2, (fun _ => '.'), (fun ch => ch == 'X')⟩ ((0 : Int), (0 : Int))
        = true
    ∧ (((0 : Int), (1 : Int)) : Pos) ≠ (((0 : Int), (0 : Int)) : Pos) := by
  refine ⟨by decide, by decide, by decide, by decide⟩

/-- C5 (amended: only three candidates are checked): one wall-follower tick
checks, in order, (facing-90°), facing, (facing+90°); it moves to the first
candidate neighbor that is in-bounds and walkable while updating the facing
to that direction, and only when none of those three qualifies does it flip
the facing by 180° and make no move that tick — even when the cell behind
is walkable. -/
theorem C5_wall_follower_left_hand_rule (G : GridCtx) (pos : Pos) (dir : Nat)
    (hdir : dir < 4) :
    (∀ d, (([(dir + 3) % 4, dir, (dir + 1) % 4]).find?
          (fun c => G.passable (wfTarget pos c)) = some d) →
        wallFollowerStep G pos dir = (wfTarget pos d, d))
    ∧ ((([(dir + 3) % 4, dir, (dir + 1) % 4]).find?
          (fun c => G.passable (wfTarget pos c)) = none) →
        wallFollowerStep G pos dir = (pos, (dir + 2) % 4)) := by
  rw [wallFollowerStep_eq G pos dir hdir]
  by_cases p1 : G.passable (wfTarget pos ((dir + 3) % 4)) = true
  · constructor
    · intro d hd
      simp [List.find?_cons_of_pos, p1] at hd
      subst hd
      simp [p1]
    · intro hd
      simp [List.find?_cons_of_pos, p1] at hd
  · have p1f : G.passable (wfTarget pos ((dir + 3) % 4)) = false := by
      simpa using p1
    by_cases p2 : G.passable (wfTarget pos dir) = true
    · constructor
      · intro d hd
        simp [List.find?, p1f, p2] at hd
        subst hd
        simp [p1f, p2]
      · intro hd
        simp [List.find?, p1f, p2] at hd
    · have p2f : G.passable (wfTarget pos dir) = false := by simpa using p2
      by_cases p3 : G.passable (wfTarget pos ((dir + 1) % 4)) = true
      · constructor
        · intro d hd
          simp [List.find?, p1f, p2f, p3] at hd
          subst hd
          simp [p1f, p2f, p3]
        · intro hd
          simp [List.find?, p1f, p2f, p3] at hd
      · have p3f : G.passable (wfTarget pos ((dir + 1) % 4)) = false := by simpa using p3
        constructor
        · intro d hd
          simp [List.find?, p1f, p2f, p3f] at hd
        · intro _
          simp [p1f, p2f, p3f]

/-- Witness for C5 at a concrete state: 2x2 all-floor grid, player at (0,0)
facing South (2); the left candidate (facing East after -90°... direction
(2+3)%4 = 1, East) leads to (0,1), which is walkable, so the agent moves
there and faces East. -/
theorem C5_wall_follower_left_hand_rule_witness :
    wallFollowerStep ⟨2, 2, (fun _ => '.'), (fun ch => ch == 'X')⟩ ((0 : Int), (0 : Int)) 2
      = (((0 : Int), (1 : Int)), 1) :=
  (C5_wall_follower_left_hand_rule ⟨2, 2, (fun _ => '.'), (fun ch => ch == 'X')⟩
      ((0 : Int), (0 : Int)) 2 (by decide)).1 1 (by decide)

/- ### Q-learning (src/src/agents/q_learning_agent.py and q_learning_runner.py) -/

/-- A Q-table state key `(player_pos, frozenset(visited_cells))`; the
visited set is modelled as a list queried only for membership. -/
abbrev QState := Pos × List Pos

/-- `QLearningAgent` (q_learning_agent.py lines 6-28).  The table is the
dict `q_table`, modelled as a partial map; rewards and rates are exact
rationals. -/
structure QLearningAgent where
  q_table : QState × Nat → Option ℚ
  learning_rate : ℚ
  discount_factor : ℚ
  epsilon : ℚ
  epsilon_decay_rate : ℚ
  min_epsilon : ℚ
  actions : List Nat

/-- `QLearningAgent.__init__(actions)` (lines 20-28): empty table,
`epsilon = 1.0`. -/
def QLearningAgent.init (actions : List Nat) : QLearningAgent where
  q_table := fun _ => none
  learning_rate := 1 / 10
  discount_factor := 99 / 100
  epsilon := 1
  epsilon_decay_rate := 1 / 1000
  min_epsilon := 1 / 100
  actions := actions

/-- `QLearningAgent.get_q_value` (lines 30-32): `q_table.get(key, 0.0)`. -/
def QLearningAgent.get_q_value (ag : QLearningAgent) (state : QState) (action : Nat) : ℚ :=
  (ag.q_table (state, action)).getD 0

/-- `QLearningAgent.get_action` (lines 34-52) with the random draws as
oracles: `u` is `random.uniform(0, 1)` and `pick` indexes the list passed
to `random.choice`.  With probability-`epsilon` condition `u < epsilon` the
agent explores (uniformly random action); otherwise it exploits, choosing
randomly among the actions of maximal stored Q-value. -/
def QLearningAgent.get_action (ag : QLearningAgent) (state : QState) (u : ℚ)
    (pick : Nat) : Nat :=
  if u < ag.epsilon then
    ag.actions.getD (pick % ag.actions.length) 0
  else
    let q_values := ag.actions.map (fun a => ag.get_q_value state a)
    let max_q := q_values.foldl max (q_values.headD 0)
    let best_actions := ag.actions.filter (fun a => ag.get_q_value state a = max_q)
    best_actions.getD (pick % best_actions.length) 0

/-- `QLearningAgent.load_q_table` (lines 84-91): replaces only the table;
every other field — in particular `epsilon` — keeps its current value. -/
def QLearningAgent.load_q_table (ag : QLearningAgent)
    (stored : QState × Nat → Option ℚ) : QLearningAgent :=
  { ag with q_table := stored }

/-- The agent state `QLearningRunner.run(training_mode=False)` acts with
after a successful load: `QLearningRunner.__init__` builds
`QLearningAgent(actions=[0,1,2,3])` and evaluation mode calls
`load_q_table()` and nothing else before the episode. -/
def evalModeAgent (stored : QState × Nat → Option ℚ) : QLearningAgent :=
  (QLearningAgent.init [0, 1, 2, 3]).load_q_table stored

/-- `range(episodes if training_mode else 1)` (q_learning_runner.py
line 36). -/
def runEpisodeCount (training_mode : Bool) (episodes : Nat) : Nat :=
  if training_mode then episodes else 1

/-- A stored table preferring action 0 at every state. -/
def c3StoredTable : QState × Nat → Option ℚ :=
  fun sa => if sa.2 = 0 then some 1 else some 0

/-- A concrete Q-learning state key. -/
def c3State : QState := (((0 : Int), (0 : Int)), [((0 : Int), (0 : Int))])

/-- C3, the divergence: evaluation mode loads the stored table but never
sets the exploration rate to 0 — `epsilon` keeps its constructor value 1,
so `random.uniform(0,1) < epsilon` holds for every draw and every
evaluation action is taken from the exploration branch.  Concretely, with a
stored table that strictly prefers action 0, the draw u = 1/2 with pick = 1
returns action 1, whose stored value is strictly below action 0's — an
evaluation action that does not maximize the stored Q-value.  (The parts of
the claim the code does satisfy: evaluation runs `range(1)`, exactly one
episode.) -/
theorem C3_eval_mode_explores :
    (evalModeAgent c3StoredTable).epsilon = 1
    ∧ ¬ (evalModeAgent c3StoredTable).epsilon = 0
    ∧ ((1 : ℚ) / 2) < (evalModeAgent c3StoredTable).epsilon
    ∧ (evalModeAgent c3StoredTable).get_action c3State (1 / 2) 1 = 1
    ∧ (evalModeAgent c3StoredTable).get_q_value c3State 1
        < (evalModeAgent c3StoredTable).get_q_value c3State 0
    ∧ runEpisodeCount false 1000 = 1 := by
  refine ⟨rfl, by norm_num [evalModeAgent, QLearningAgent.load_q_table, QLearningAgent.init],
    by norm_num [evalModeAgent, QLearningAgent.load_q_table, QLearningAgent.init], ?_, ?_, rfl⟩
  · rw [QLearningAgent.get_action,
      if_pos (by norm_num [evalModeAgent, QLearningAgent.load_q_table, QLearningAgent.init])]
    rfl
  · norm_num [QLearningAgent.get_q_value, evalModeAgent, QLearningAgent.load_q_table,
      QLearningAgent.init, c3StoredTable]

/- ### Q-learning training-step reward (src/src/agents/q_learning_runner.py
lines 43-89) -/

/-- The action moves `moves = [(-1,0),(0,1),(1,0),(0,-1)]` (line 60). -/
def qMoves : List Pos := [(-1, 0), (0, 1), (1, 0), (0, -1)]

/-- One step of the Q-learning loop (q_learning_runner.py lines 50-79):
the direction-continuity term, the wall/exit/visited/new-cell reward and
the next player position.  `action` is always in `[0, 4)`, so the `getD`
default of `moves[action]` is never taken. -/
def qStepReward (cfg : GameCfg) (cellF : Pos → Char) (visited : List Pos)
    (pos : Pos) (action : Nat) (prev_action : Option Nat) : ℚ × Pos :=
  let direction_reward : ℚ :=
    match prev_action with
    | none => 0
    | some pa => if action ≠ pa then -1 / 10 else 1 / 20
  let m := qMoves.getD action (0, 0)
  let n : Pos := (pos.1 + m.1, pos.2 + m.2)
  if (cfg.ctx cellF).passable n = true then
    if n = cfg.exit_pos then (10 + direction_reward, n)
    else if n ∈ visited then (-1 / 5 + direction_reward, n)
    else (1 + direction_reward, n)
  else (-5 + direction_reward, pos)

/-- C6: the step reward of the Q-learning training loop equals −5 when the
target cell is off-grid or non-walkable (and the player position is then
unchanged); otherwise +10 when the target is the exit, −0.2 when it is
already visited, +1 when it is new — plus +0.05 when the action repeats the
previous one, −0.1 when it differs, and 0 on the first step of an episode
(`prev_action = None`). -/
theorem C6_q_learning_step_reward (cfg : GameCfg) (cellF : Pos → Char)
    (visited : List Pos) (pos : Pos) (action : Nat) (prev_action : Option Nat) :
    let cont : ℚ := match prev_action with
      | none => 0
      | some pa => if action = pa then 1 / 20 else -1 / 10
    let target : Pos := (pos.1 + (qMoves.getD action (0, 0)).1,
      pos.2 + (qMoves.getD action (0, 0)).2)
    ((cfg.ctx cellF).passable target = false →
      qStepReward cfg cellF visited pos action prev_action = (-5 + cont, pos))
    ∧ ((cfg.ctx cellF).passable target = true → target = cfg.exit_pos →
      qStepReward cfg cellF visited pos action prev_action = (10 + cont, target))
    ∧ ((cfg.ctx cellF).passable target = true → target ≠ cfg.exit_pos →
      target ∈ visited →
      qStepReward cfg cellF visited pos action prev_action = (-1 / 5 + cont, target))
    ∧ ((cfg.ctx cellF).passable target = true → target ≠ cfg.exit_pos →
      target ∉ visited →
      qStepReward cfg cellF visited pos action prev_action = (1 + cont, target)) := by
  have hcont : (match prev_action with
      | none => (0 : ℚ)
      | some pa => if action ≠ pa then -1 / 10 else 1 / 20) =
      (match prev_action with
      | none => (0 : ℚ)
      | some pa => if action = pa then 1 / 20 else -1 / 10) := by
    rcases prev_action with _ | pa
    · rfl
    · by_cases h : action = pa <;> simp [h]
  refine ⟨?_, ?_, ?_, ?_⟩
  · intro hpass
    simp only [qStepReward]
    rw [hcont, hpass, if_neg (by simp)]
  · intro hpass hexit
    simp only [qStepReward]
    rw [hcont, hpass, if_pos rfl, if_pos hexit]
  · intro hpass hexit hvis
    simp only [qStepReward]
    rw [hcont, hpass, if_pos rfl, if_neg hexit, if_pos hvis]
  · intro hpass hexit hvis
    simp only [qStepReward]
    rw [hcont, hpass, if_pos rfl, if_neg hexit, if_neg hvis]

/-- Witness for C6: on a 2x2 grid with exit (1,1), from (0,0) moving East
(action 1) into the unvisited walkable cell (0,1) after having moved East
before yields reward 1 + 0.05. -/
theorem C6_q_learning_step_reward_witness :
    qStepReward ⟨2, 2, (fun ch => ch == 'X'), ((1 : Int), (1 : Int))⟩ (fun _ => '.')
        [((0 : Int), (0 : Int))] ((0 : Int), (0 : Int)) 1 (some 1)
      = (1 + 1 / 20, ((0 : Int), (1 : Int))) :=
  ((C6_q_learning_step_reward ⟨2, 2, (fun ch => ch == 'X'), ((1 : Int), (1 : Int))⟩
      (fun _ => '.') [((0 : Int), (0 : Int))] ((0 : Int), (0 : Int)) 1 (some 1)).2.2.2
    (by decide) (by decide) (by decide))

/- ### Frontier agent (src/src/agents/frontier_agent.py) with
`Game._move_player_to` (src/src/game/game.py lines 125-135) -/

/-- The game state the frontier agent manipulates: the cell contents, the
player position and the shared visited set `game.visited_cells`. -/
structure FrontierGame where
  cellF : Pos → Char
  player_pos : Pos
  visited_cells : List Pos

/-- `Game._move_player_to(new_pos)` of src/src/game/game.py (lines
125-135): writes the visited marker at the old player cell, the player
marker at the new one, and updates `player_pos`.  It does not touch
`visited_cells` — no line of this method (or of the replay loop in
`FrontierAgent.run`) adds to it. -/
def movePlayerTo (st : FrontierGame) (new_pos : Pos) : FrontierGame :=
  { cellF := movePlayerCells st.cellF st.player_pos new_pos
    player_pos := new_pos
    visited_cells := st.visited_cells }

/-- The neighbor moves `[(-1,0),(0,1),(1,0),(0,-1)]` of `_find_frontier`. -/
def frontierMoves : List Pos := [(-1, 0), (0, 1), (1, 0), (0, -1)]

/-- Membership in the set `FrontierAgent._find_frontier` returns (lines
41-57): `p` is an in-bounds, walkable, unvisited neighbor of some visited
cell. -/
def isFrontierCell (cfg : GameCfg) (st : FrontierGame) (p : Pos) : Bool :=
  (st.visited_cells.any fun v =>
    frontierMoves.any fun m => decide ((v.1 + m.1, v.2 + m.2) = p))
  && (cfg.ctx st.cellF).passable p
  && !(st.visited_cells.contains p)

/-- The path replay `for move in path_to_frontier:
self.game._move_player_to(move)` (frontier_agent.py lines 34-37). -/
def frontierReplay (st : FrontierGame) (path : List Pos) : FrontierGame :=
  path.foldl movePlayerTo st

/-- A concrete 1x2 game for the frontier claim: cells `P .`, player at
(0,0), visited seeded with the start (frontier_agent.py line 10). -/
def c4Cfg : GameCfg := ⟨1, 2, (fun ch => ch == 'X'), ((0 : Int), (0 : Int))⟩

/-- Initial frontier-agent state on the 1x2 grid. -/
def c4Start : FrontierGame :=
  { cellF := fun p => if p = ((0 : Int), (0 : Int)) then 'P' else '.'
    player_pos := ((0 : Int), (0 : Int))
    visited_cells := [((0 : Int), (0 : Int))] }

/-- C4, the divergence: on the 1x2 grid the frontier is the singleton
{(0,1)}, the A* path to it (the agent's `_a_star_pathfinding` is
line-for-line the one of src/game.py) is [(0,1)], and after replaying that
path with `_move_player_to` the traversed position (0,1) has NOT been added
to `game.visited_cells` — the visited set is still exactly {(0,0)} and the
recomputed frontier still contains (0,1), so the frontier never empties and
the run never reaches its "covered all reachable area" exit. -/
theorem C4_frontier_visited_not_updated :
    isFrontierCell c4Cfg c4Start ((0 : Int), (1 : Int)) = true
    ∧ isFrontierCell c4Cfg c4Start ((0 : Int), (0 : Int)) = false
    ∧ a_star_pathfinding (c4Cfg.ctx c4Start.cellF) ((0 : Int), (0 : Int))
        ((0 : Int), (1 : Int)) false = some [((0 : Int), (1 : Int))]
    ∧ (frontierReplay c4Start [((0 : Int), (1 : Int))]).player_pos = ((0 : Int), (1 : Int))
    ∧ (frontierReplay c4Start [((0 : Int), (1 : Int))]).visited_cells
        = [((0 : Int), (0 : Int))]
    ∧ ((0 : Int), (1 : Int)) ∉ (frontierReplay c4Start [((0 : Int), (1 : Int))]).visited_cells
    ∧ isFrontierCell c4Cfg (frontierReplay c4Start [((0 : Int), (1 : Int))])
        ((0 : Int), (1 : Int)) = true := by
  refine ⟨by decide, by decide, by decide, by decide, by decide, by decide, by decide⟩

/- ### A* correctness (claim C1) — walk lemmas -/

/-- The four neighbor targets the A* loop expands from `current`. -/
def neighborsOf (p : Pos) : List Pos :=
  astarOffsets.map fun d => (p.1 + d.1, p.2 + d.2)

theorem neighborsOf_adj (p n : Pos) (h : n ∈ neighborsOf p) : adj p n := by
  unfold neighborsOf astarOffsets at h
  unfold adj manhattan
  rcases p with ⟨r, c⟩
  fin_cases h <;> simp

theorem lastPos_nil (s : Pos) : lastPos s [] = s := rfl

theorem lastPos_cons (s q : Pos) (l : List Pos) :
    lastPos s (q :: l) = lastPos q l := by
  unfold lastPos
  rcases l with _ | ⟨x, xs⟩
  · rfl
  · simp [List.getLastD]

theorem lastPos_append (s : Pos) (l1 l2 : List Pos) :
    lastPos s (l1 ++ l2) = lastPos (lastPos s l1) l2 := by
  induction l1 generalizing s with
  | nil => rfl
  | cons x xs ih => rw [List.cons_append, lastPos_cons, lastPos_cons, ih]

theorem ValidSeq_append (G : GridCtx) (s : Pos) (l1 l2 : List Pos) :
    ValidSeq G s (l1 ++ l2) ↔ ValidSeq G s l1 ∧ ValidSeq G (lastPos s l1) l2 := by
  induction l1 generalizing s with
  | nil => simp [ValidSeq, lastPos_nil]
  | cons x xs ih =>
    rw [List.cons_append]
    show (adj s x ∧ G.passable x = true ∧ ValidSeq G x (xs ++ l2)) ↔ _
    rw [ih x, lastPos_cons]
    exact ⟨fun h => ⟨⟨h.1, h.2.1, h.2.2.1⟩, h.2.2.2⟩,
      fun h => ⟨h.1.1, h.1.2.1, h.1.2.2, h.2⟩⟩

theorem ReachN_extend (G : GridCtx) (s t u : Pos) (n : Nat)
    (h : ReachN G s t n) (hadj : adj t u) (hp : G.passable u = true) :
    ReachN G s u (n + 1) := by
  obtain ⟨l, hv, hl, hn⟩ := h
  refine ⟨l ++ [u], ?_, ?_, by simp [hn]⟩
  · rw [ValidSeq_append, hl]
    exact ⟨hv, hadj, hp, trivial⟩
  · rw [lastPos_append, hl]
    rfl

theorem manhattan_comm (a b : Pos) : manhattan a b = manhattan b a := by
  unfold manhattan; omega

theorem manhattan_triangle (a b c : Pos) :
    manhattan a c ≤ manhattan a b + manhattan b c := by
  unfold manhattan; omega

/-- Every walk from `s` to `t` is at least as long as the Manhattan
distance. -/
theorem manhattan_le_walk (G : GridCtx) :
    ∀ (l : List Pos) (s : Pos), ValidSeq G s l → manhattan s (lastPos s l) ≤ l.length := by
  intro l
  induction l with
  | nil => intro s _; simp [lastPos_nil, manhattan]
  | cons x xs ih =>
    intro s hv
    obtain ⟨hadj, _, hrest⟩ := hv
    rw [lastPos_cons]
    calc manhattan s (lastPos x xs)
        ≤ manhattan s x + manhattan x (lastPos x xs) := manhattan_triangle _ _ _
      _ ≤ 1 + xs.length := by
          have := ih x hrest
          unfold adj at hadj
          omega
      _ = (x :: xs).length := by simp [Nat.add_comm]

theorem exists_isShortest (G : GridCtx) (s t : Pos) (h : Reachable G s t) :
    ∃ n, IsShortest G s t n := by
  classical
  have hfind := Nat.find_spec h
  exact ⟨Nat.find h, hfind, fun m hm => Nat.find_min' h hm⟩

/-- Prefix of a shortest walk is itself shortest (to its own endpoint). -/
theorem shortest_init_seg (G : GridCtx) (s t u : Pos) (l : List Pos)
    (hv : ValidSeq G s (l ++ [u]))
    (hshort : IsShortest G s u (l ++ [u]).length)
    (ht : lastPos s l = t) :
    IsShortest G s t l.length := by
  obtain ⟨hval, hmin⟩ := hshort
  have hsplit := (ValidSeq_append G s l [u]).mp hv
  refine ⟨⟨l, hsplit.1, ht, rfl⟩, ?_⟩
  intro m hm
  obtain ⟨l2, hv2, hl2, hlen2⟩ := hm
  by_contra hcon
  have hshorter : ReachN G s u (m + 1) := by
    refine ⟨l2 ++ [u], ?_, ?_, by simp [hlen2]⟩
    · rw [ValidSeq_append, hl2]
      rw [ht] at hsplit
      exact ⟨hv2, hsplit.2⟩
    · rw [lastPos_append, hl2]
      rfl
  have := hmin (m + 1) hshorter
  simp at this
  omega

theorem adj_mem_neighborsOf (a b : Pos) (h : adj a b) : b ∈ neighborsOf a := by
  unfold adj manhattan at h
  obtain ⟨a1, a2⟩ := a
  obtain ⟨b1, b2⟩ := b
  simp only at h
  have hcases : (b1 = a1 - 1 ∧ b2 = a2) ∨ (b1 = a1 + 1 ∧ b2 = a2)
      ∨ (b1 = a1 ∧ b2 = a2 - 1) ∨ (b1 = a1 ∧ b2 = a2 + 1) := by omega
  unfold neighborsOf astarOffsets
  rcases hcases with ⟨h1, h2⟩ | ⟨h1, h2⟩ | ⟨h1, h2⟩ | ⟨h1, h2⟩ <;> subst h1 <;> subst h2 <;>
    simp <;> omega

/- Heap-order lemmas for `popMin` -/

theorem entryLE_refl (e : Nat × Pos) : entryLE e e := by unfold entryLE; omega

theorem entryLE_total (e1 e2 : Nat × Pos) : entryLE e1 e2 ∨ entryLE e2 e1 := by
  unfold entryLE; omega

theorem entryLE_trans (e1 e2 e3 : Nat × Pos) (h1 : entryLE e1 e2) (h2 : entryLE e2 e3) :
    entryLE e1 e3 := by
  unfold entryLE at *; omega

theorem entryLE_fst (e1 e2 : Nat × Pos) (h : entryLE e1 e2) : e1.1 ≤ e2.1 := by
  unfold entryLE at h; omega

theorem popMin_eq_none (l : List (Nat × Pos)) : popMin l = none ↔ l = [] := by
  cases l with
  | nil => simp [popMin]
  | cons e es =>
    simp only [popMin]
    rcases h : popMin es with _ | ⟨m, rest⟩
    · simp
    · simp only
      split <;> simp

theorem popMin_perm (l : List (Nat × Pos)) (e : Nat × Pos) (rest : List (Nat × Pos))
    (h : popMin l = some (e, rest)) : l.Perm (e :: rest) := by
  induction l generalizing e rest with
  | nil => cases h
  | cons a as ih =>
    simp only [popMin] at h
    rcases h2 : popMin as with _ | ⟨m, rest2⟩
    · rw [h2] at h
      simp only [Option.some.injEq, Prod.mk.injEq] at h
      obtain ⟨rfl, rfl⟩ := h
      have h3 : as = [] := (popMin_eq_none as).mp h2
      subst h3
      exact List.Perm.refl _
    · rw [h2] at h
      simp only at h
      split at h
      · simp only [Option.some.injEq, Prod.mk.injEq] at h
        obtain ⟨rfl, rfl⟩ := h
        exact List.Perm.refl _
      · simp only [Option.some.injEq, Prod.mk.injEq] at h
        obtain ⟨rfl, rfl⟩ := h
        exact (List.Perm.cons a (ih m rest2 h2)).trans (List.Perm.swap m a rest2)

theorem popMin_min (l : List (Nat × Pos)) (e : Nat × Pos) (rest : List (Nat × Pos))
    (h : popMin l = some (e, rest)) : ∀ x ∈ l, entryLE e x := by
  induction l generalizing e rest with
  | nil => cases h
  | cons a as ih =>
    simp only [popMin] at h
    rcases h2 : popMin as with _ | ⟨m, rest2⟩
    · rw [h2] at h
      simp only [Option.some.injEq, Prod.mk.injEq] at h
      obtain ⟨rfl, rfl⟩ := h
      have h3 : as = [] := (popMin_eq_none as).mp h2
      subst h3
      intro x hx
      simp at hx
      subst hx
      exact entryLE_refl _
    · rw [h2] at h
      simp only at h
      split at h
      · rename_i hle
        simp only [Option.some.injEq, Prod.mk.injEq] at h
        obtain ⟨rfl, rfl⟩ := h
        intro x hx
        rcases List.mem_cons.mp hx with hx | hx
        · subst hx; exact entryLE_refl _
        · exact entryLE_trans _ _ _ hle (ih m rest2 h2 x hx)
      · rename_i hnle
        simp only [Option.some.injEq, Prod.mk.injEq] at h
        obtain ⟨rfl, rfl⟩ := h
        intro x hx
        rcases List.mem_cons.mp hx with hx | hx
        · subst hx
          rcases entryLE_total x m with h3 | h3
          · exact absurd h3 hnle
          · exact h3
        · exact ih m rest2 h2 x hx

/- Finite bookkeeping for the A* termination measure -/

/-- The finset of in-bounds grid cells. -/
def cellsFin (G : GridCtx) : Finset Pos :=
  ((Finset.range G.rows) ×ˢ (Finset.range G.cols)).image
    fun rc => ((rc.1 : Int), (rc.2 : Int))

theorem mem_cellsFin (G : GridCtx) (p : Pos) :
    p ∈ cellsFin G ↔
      0 ≤ p.1 ∧ p.1 < (G.rows : Int) ∧ 0 ≤ p.2 ∧ p.2 < (G.cols : Int) := by
  obtain ⟨x, y⟩ := p
  unfold cellsFin
  simp only [Finset.mem_image, Finset.mem_product, Finset.mem_range, Prod.exists]
  constructor
  · rintro ⟨a, b, ⟨ha, hb⟩, heq⟩
    obtain ⟨h1, h2⟩ := Prod.mk.injEq .. ▸ heq
    simp only [Prod.mk.injEq] at heq
    obtain ⟨rfl, rfl⟩ := heq
    refine ⟨by omega, by omega, by omega, by omega⟩
  · rintro ⟨h1, h2, h3, h4⟩
    refine ⟨x.toNat, y.toNat, ⟨by omega, by omega⟩, ?_⟩
    simp only [Prod.mk.injEq]
    omega

theorem card_cellsFin_le (G : GridCtx) : (cellsFin G).card ≤ G.rows * G.cols := by
  calc (cellsFin G).card ≤ ((Finset.range G.rows) ×ˢ (Finset.range G.cols)).card :=
        Finset.card_image_le
    _ = G.rows * G.cols := by simp

theorem passable_mem_cellsFin (G : GridCtx) (p : Pos) (h : G.passable p = true) :
    p ∈ cellsFin G := by
  rw [mem_cellsFin]
  unfold GridCtx.passable at h
  simp only [Bool.and_eq_true, decide_eq_true_eq] at h
  exact ⟨h.1.1.1.1, h.1.1.1.2, h.1.1.2, h.1.2⟩

/-- The positions the measure ranges over: the grid cells plus the start. -/
def measFin (G : GridCtx) (start : Pos) : Finset Pos := insert start (cellsFin G)

theorem card_measFin_le (G : GridCtx) (start : Pos) :
    (measFin G start).card ≤ G.rows * G.cols + 1 := by
  calc (measFin G start).card ≤ (cellsFin G).card + 1 := Finset.card_insert_le _ _
    _ ≤ G.rows * G.cols + 1 := by
        have := card_cellsFin_le G
        omega

/-- The number of positions holding a `g_score`. -/
def domCard (G : GridCtx) (start : Pos) (st : AState) : Nat :=
  ((measFin G start).filter fun p => (st.gScore p).isSome).card

/-- The A* loop termination measure: open-heap size plus total residual
g-score mass. -/
def measureA (G : GridCtx) (start : Pos) (st : AState) : Nat :=
  st.openSet.length +
    (measFin G start).sum fun p => (st.gScore p).getD (G.rows * G.cols + 1)

/- The A* loop invariant -/

/-- The stable part of the A* loop invariant (everything except the
frontier-covering property). -/
structure AInvCore (G : GridCtx) (start goal : Pos) (st : AState) : Prop where
  entries : ∀ f p, (f, p) ∈ st.openSet →
    ∃ g, st.gScore p = some g ∧ g + manhattan p goal ≤ f
  gReach : ∀ p g, st.gScore p = some g → ReachN G start p g
  gLoc : ∀ p, (st.gScore p).isSome = true → p = start ∨ G.passable p = true
  gBound : ∀ p g, st.gScore p = some g → g < domCard G start st
  gStart : st.gScore start = some 0
  goalOpen : (st.gScore goal).isSome = true → ∃ f, (f, goal) ∈ st.openSet
  cfChain : ∀ p q, st.cameFrom p = some q → adj q p ∧ G.passable p = true ∧
    ∃ gp gq, st.gScore p = some gp ∧ st.gScore q = some gq ∧ gq + 1 ≤ gp
  cfDom : ∀ p, (st.gScore p).isSome = true → p = start ∨ (st.cameFrom p).isSome = true
  cfStart : st.cameFrom start = none

/-- The full A* loop invariant: the core plus the covering property — every
optimally-scored node either still has an adequate open entry or has had
all its walkable neighbors relaxed to within `g + 1`. -/
structure AInv (G : GridCtx) (start goal : Pos) (st : AState)
    extends AInvCore G start goal st : Prop where
  cover : ∀ p g, st.gScore p = some g → IsShortest G start p g →
    (∃ f, (f, p) ∈ st.openSet ∧ f ≤ g + manhattan p goal)
    ∨ (∀ m ∈ neighborsOf p, G.passable m = true →
        ∃ gm, st.gScore m = some gm ∧ gm ≤ g + 1)

theorem domCard_mono (G : GridCtx) (start : Pos) (st st2 : AState)
    (h : ∀ p, (st.gScore p).isSome = true → (st2.gScore p).isSome = true) :
    domCard G start st ≤ domCard G start st2 := by
  apply Finset.card_le_card
  intro p hp
  rw [Finset.mem_filter] at hp ⊢
  exact ⟨hp.1, h p hp.2⟩

theorem domCard_le_U (G : GridCtx) (start : Pos) (st : AState) :
    domCard G start st ≤ G.rows * G.cols + 1 :=
  le_trans (Finset.card_filter_le _ _) (card_measFin_le G start)

theorem sum_update_le (s : Finset Pos) (f g : Pos → Nat) (a : Pos) (δ : Nat)
    (ha : a ∈ s) (hsame : ∀ x ∈ s, x ≠ a → f x = g x) (hdelta : g a + δ ≤ f a) :
    (∑ x ∈ s, g x) + δ ≤ ∑ x ∈ s, f x := by
  rw [← Finset.add_sum_erase s f ha, ← Finset.add_sum_erase s g ha]
  have hs : (∑ x ∈ s.erase a, g x) = ∑ x ∈ s.erase a, f x := by
    apply Finset.sum_congr rfl
    intro x hx
    rw [Finset.mem_erase] at hx
    exact (hsame x hx.2 hx.1).symm
  omega

/-- The state the relaxation writes when a strictly better g is found. -/
def pushState (G : GridCtx) (goal cur nb : Pos) (st : AState) (t : Nat) : AState where
  openSet := (t + manhattan nb goal, nb) :: st.openSet
  cameFrom := fun q => if q = nb then some cur else st.cameFrom q
  gScore := fun q => if q = nb then some t else st.gScore q

theorem domCard_push_fresh (G : GridCtx) (start goal cur nb : Pos) (st : AState) (t : Nat)
    (hfresh : st.gScore nb = none) (hmem : nb ∈ measFin G start) :
    domCard G start (pushState G goal cur nb st t) = domCard G start st + 1 := by
  unfold domCard
  have hset : (measFin G start).filter
        (fun p => ((pushState G goal cur nb st t).gScore p).isSome) =
      insert nb ((measFin G start).filter fun p => (st.gScore p).isSome) := by
    ext p
    simp only [Finset.mem_filter, Finset.mem_insert, pushState]
    by_cases hp : p = nb
    · subst hp
      simp [hmem]
    · simp [hp]
  rw [hset, Finset.card_insert_of_not_mem]
  simp only [Finset.mem_filter, not_and]
  intro _
  simp [hfresh]

theorem domCard_push_existing (G : GridCtx) (start goal cur nb : Pos) (st : AState)
    (t old : Nat) (hold : st.gScore nb = some old) :
    domCard G start (pushState G goal cur nb st t) = domCard G start st := by
  unfold domCard
  congr 1
  apply Finset.filter_congr
  intro p _
  simp only [pushState]
  by_cases hp : p = nb
  · subst hp
    simp [hold]
  · simp [hp]

/-- Everything the loop-preservation argument needs about one executed
relaxation (the branch that actually updates). -/
theorem push_case_spec (G : GridCtx) (start goal cur nb : Pos) (st : AState) (gc : Nat)
    (hcore : AInvCore G start goal st)
    (hadj : adj cur nb) (hgc : st.gScore cur = some gc) (hnbne : nb ≠ cur)
    (hpass : G.passable nb = true)
    (himp : ∀ old, st.gScore nb = some old → gc + 1 < old) :
    AInvCore G start goal (pushState G goal cur nb st (gc + 1))
    ∧ measureA G start (pushState G goal cur nb st (gc + 1)) ≤ measureA G start st := by
  set st2 := pushState G goal cur nb st (gc + 1) with hst2
  have hnbstart : nb ≠ start := by
    intro h
    rcases hh : st.gScore nb with _ | old
    · rw [h, hcore.gStart] at hh; cases hh
    · have := himp old hh
      rw [h, hcore.gStart] at hh
      cases hh
      omega
  have hg2 : ∀ p, st2.gScore p = if p = nb then some (gc + 1) else st.gScore p :=
    fun p => rfl
  have hcf2 : ∀ p, st2.cameFrom p = if p = nb then some cur else st.cameFrom p :=
    fun p => rfl
  have hnbcells : nb ∈ measFin G start := by
    unfold measFin
    exact Finset.mem_insert_of_mem (passable_mem_cellsFin G nb hpass)
  have hcurdom : gc < domCard G start st := hcore.gBound cur gc hgc
  have hcore2 : AInvCore G start goal st2 := by
    refine ⟨?_, ?_, ?_, ?_, ?_, ?_, ?_, ?_, ?_⟩
    · -- entries
      intro f p hmem
      rcases List.mem_cons.mp hmem with hmem | hmem
      · simp only [Prod.mk.injEq] at hmem
        obtain ⟨rfl, rfl⟩ := hmem
        rw [hg2]
        simp
      · obtain ⟨g, hgp, hle⟩ := hcore.entries f p hmem
        rw [hg2]
        split
        · rename_i hp
          have := himp g (hp ▸ hgp)
          exact ⟨gc + 1, rfl, by omega⟩
        · exact ⟨g, hgp, hle⟩
    · -- gReach
      intro p g hp
      rw [hg2] at hp
      split at hp
      · rename_i hpe
        injection hp with hg3
        rw [hpe, ← hg3]
        exact ReachN_extend G start cur nb gc (hcore.gReach cur gc hgc) hadj hpass
      · exact hcore.gReach p g hp
    · -- gLoc
      intro p hp
      rw [hg2] at hp
      split at hp
      · rename_i hpe
        rw [hpe]
        exact Or.inr hpass
      · exact hcore.gLoc p hp
    · -- gBound
      intro p g hp
      rw [hg2] at hp
      split at hp
      · rename_i hpe
        injection hp with hg3
        rcases hold : st.gScore nb with _ | old
        · rw [domCard_push_fresh G start goal cur nb st (gc + 1) hold hnbcells]
          omega
        · rw [domCard_push_existing G start goal cur nb st (gc + 1) old hold]
          have h1 := himp old hold
          have h2 := hcore.gBound nb old hold
          omega
      · have h3 := hcore.gBound p g hp
        have h4 : domCard G start st ≤ domCard G start st2 := by
          apply domCard_mono
          intro q hq
          rw [hg2]
          split
          · rfl
          · exact hq
        omega
    · -- gStart
      rw [hg2, if_neg (Ne.symm hnbstart)]
      exact hcore.gStart
    · -- goalOpen
      intro hp
      by_cases hgoal : goal = nb
      · refine ⟨gc + 1 + manhattan nb goal, ?_⟩
        have heq : ((gc + 1 + manhattan nb goal, goal) : Nat × Pos)
            = (gc + 1 + manhattan nb goal, nb) := by rw [hgoal]
        rw [heq]
        exact List.mem_cons_self _ _
      · rw [hg2, if_neg hgoal] at hp
        obtain ⟨f, hf⟩ := hcore.goalOpen hp
        exact ⟨f, List.mem_cons_of_mem _ hf⟩
    · -- cfChain
      intro p q hpq
      rw [hcf2] at hpq
      split at hpq
      · rename_i hpe
        injection hpq with hq2
        refine ⟨?_, ?_, gc + 1, gc, ?_, ?_, le_refl _⟩
        · rw [hpe, ← hq2]
          exact hadj
        · rw [hpe]
          exact hpass
        · rw [hg2, if_pos hpe]
        · rw [hg2, ← hq2, if_neg (Ne.symm hnbne)]
          exact hgc
      · rename_i hpe
        obtain ⟨h1, h2, gp, gq, hp, hq, hle⟩ := hcore.cfChain p q hpq
        refine ⟨h1, h2, gp, ?_⟩
        by_cases hqe : q = nb
        · refine ⟨gc + 1, ?_, ?_, ?_⟩
          · rw [hg2, if_neg hpe]
            exact hp
          · rw [hg2, if_pos hqe]
          · have := himp gq (hqe ▸ hq)
            omega
        · refine ⟨gq, ?_, ?_, hle⟩
          · rw [hg2, if_neg hpe]
            exact hp
          · rw [hg2, if_neg hqe]
            exact hq
    · -- cfDom
      intro p hp
      rw [hcf2]
      split
      · exact Or.inr rfl
      · rename_i hpe
        rw [hg2, if_neg hpe] at hp
        exact hcore.cfDom p hp
    · -- cfStart
      rw [hcf2, if_neg (Ne.symm hnbstart)]
      exact hcore.cfStart
  refine ⟨hcore2, ?_⟩
  unfold measureA
  have hlen : st2.openSet.length = st.openSet.length + 1 := rfl
  set U := G.rows * G.cols + 1 with hU
  have hsum : (∑ p ∈ measFin G start, (st2.gScore p).getD U) + 1 ≤
      ∑ p ∈ measFin G start, (st.gScore p).getD U := by
    apply sum_update_le _ _ _ nb 1 hnbcells
    · intro x _ hx
      rw [hg2, if_neg hx]
    · rw [hg2, if_pos rfl]
      rcases hold : st.gScore nb with _ | old
      · simp only [Option.getD_some, Option.getD_none]
        have hdomlt : domCard G start st < (measFin G start).card := by
          apply Finset.card_lt_card
          constructor
          · exact Finset.filter_subset _ _
          · intro hsub
            have hmem2 := hsub hnbcells
            rw [Finset.mem_filter] at hmem2
            rw [hold] at hmem2
            simp at hmem2
        have hcard := card_measFin_le G start
        omega
      · simp only [Option.getD_some]
        have := himp old hold
        omega
  omega

/-- Full specification of one `relaxNeighbor` call: invariant preservation,
monotone evolution of heap and g-scores, the relaxation bound for the
neighbor, the exact description of any change, and the measure bound. -/
theorem relax_spec (G : GridCtx) (start goal cur nb : Pos) (st : AState) (gc : Nat)
    (hcore : AInvCore G start goal st)
    (hadj : adj cur nb) (hgc : st.gScore cur = some gc) (hnbne : nb ≠ cur) :
    AInvCore G start goal (relaxNeighbor G goal cur nb st)
    ∧ (∀ e ∈ st.openSet, e ∈ (relaxNeighbor G goal cur nb st).openSet)
    ∧ (∀ p g, st.gScore p = some g →
        ∃ g2, (relaxNeighbor G goal cur nb st).gScore p = some g2 ∧ g2 ≤ g)
    ∧ (relaxNeighbor G goal cur nb st).gScore cur = some gc
    ∧ (G.passable nb = true →
        ∃ gm, (relaxNeighbor G goal cur nb st).gScore nb = some gm ∧ gm ≤ gc + 1)
    ∧ (∀ p, (relaxNeighbor G goal cur nb st).gScore p ≠ st.gScore p →
        (relaxNeighbor G goal cur nb st).gScore p = some (gc + 1)
          ∧ ((gc + 1 + manhattan p goal, p) ∈ (relaxNeighbor G goal cur nb st).openSet)
          ∧ adj cur p ∧ G.passable p = true)
    ∧ measureA G start (relaxNeighbor G goal cur nb st) ≤ measureA G start st := by
  by_cases hpass : G.passable nb = true
  · rcases hold : st.gScore nb with _ | old
    · -- neighbor has no g yet: always update
      have himp : ∀ o, st.gScore nb = some o → gc + 1 < o := by
        intro o h
        rw [hold] at h
        cases h
      have heq : relaxNeighbor G goal cur nb st = pushState G goal cur nb st (gc + 1) := by
        unfold relaxNeighbor pushState
        rw [if_pos hpass, hgc, hold]
        rfl
      obtain ⟨hcore2, hmeas⟩ :=
        push_case_spec G start goal cur nb st gc hcore hadj hgc hnbne hpass himp
      rw [heq]
      refine ⟨hcore2, ?_, ?_, ?_, ?_, ?_, hmeas⟩
      · intro e he
        exact List.mem_cons_of_mem _ he
      · intro p g hp
        by_cases hpe : p = nb
        · rw [hpe, hold] at hp
          cases hp
        · refine ⟨g, ?_, le_refl _⟩
          show (if p = nb then some (gc + 1) else st.gScore p) = some g
          rw [if_neg hpe]
          exact hp
      · show (if cur = nb then some (gc + 1) else st.gScore cur) = some gc
        rw [if_neg (Ne.symm hnbne)]
        exact hgc
      · intro _
        refine ⟨gc + 1, ?_, le_refl _⟩
        show (if nb = nb then some (gc + 1) else st.gScore nb) = some (gc + 1)
        rw [if_pos rfl]
      · intro p hp
        by_cases hpe : p = nb
        · subst hpe
          refine ⟨?_, ?_, hadj, hpass⟩
          · show (if p = p then some (gc + 1) else st.gScore p) = some (gc + 1)
            rw [if_pos rfl]
          · exact List.mem_cons_self _ _
        · exact absurd (if_neg hpe) hp
    · by_cases himp2 : gc + 1 < old
      · -- strictly better g found: update
        have himp : ∀ o, st.gScore nb = some o → gc + 1 < o := by
          intro o h
          rw [hold] at h
          injection h with h2
          rw [← h2]
          exact himp2
        have heq : relaxNeighbor G goal cur nb st = pushState G goal cur nb st (gc + 1) := by
          unfold relaxNeighbor pushState
          rw [if_pos hpass, hgc, hold]
          simp [himp2]
        obtain ⟨hcore2, hmeas⟩ :=
          push_case_spec G start goal cur nb st gc hcore hadj hgc hnbne hpass himp
        rw [heq]
        refine ⟨hcore2, ?_, ?_, ?_, ?_, ?_, hmeas⟩
        · intro e he
          exact List.mem_cons_of_mem _ he
        · intro p g hp
          by_cases hpe : p = nb
          · refine ⟨gc + 1, ?_, ?_⟩
            · show (if p = nb then some (gc + 1) else st.gScore p) = some (gc + 1)
              rw [if_pos hpe]
            · rw [hpe, hold] at hp
              injection hp with h2
              omega
          · refine ⟨g, ?_, le_refl _⟩
            show (if p = nb then some (gc + 1) else st.gScore p) = some g
            rw [if_neg hpe]
            exact hp
        · show (if cur = nb then some (gc + 1) else st.gScore cur) = some gc
          rw [if_neg (Ne.symm hnbne)]
          exact hgc
        · intro _
          refine ⟨gc + 1, ?_, le_refl _⟩
          show (if nb = nb then some (gc + 1) else st.gScore nb) = some (gc + 1)
          rw [if_pos rfl]
        · intro p hp
          by_cases hpe : p = nb
          · subst hpe
            refine ⟨?_, ?_, hadj, hpass⟩
            · show (if p = p then some (gc + 1) else st.gScore p) = some (gc + 1)
              rw [if_pos rfl]
            · exact List.mem_cons_self _ _
          · exact absurd (if_neg hpe) hp
      · -- no improvement: state unchanged
        have heq : relaxNeighbor G goal cur nb st = st := by
          unfold relaxNeighbor
          rw [if_pos hpass, hgc, hold]
          simp [himp2]
        rw [heq]
        refine ⟨hcore, fun e he => he, fun p g hp => ⟨g, hp, le_refl _⟩, hgc, ?_, ?_,
          le_refl _⟩
        · intro _
          exact ⟨old, hold, by omega⟩
        · intro p hp
          exact absurd rfl hp
  · have heq : relaxNeighbor G goal cur nb st = st := by
      unfold relaxNeighbor
      rw [if_neg hpass]
    rw [heq]
    refine ⟨hcore, fun e he => he, fun p g hp => ⟨g, hp, le_refl _⟩, hgc, ?_, ?_, le_refl _⟩
    · intro h
      exact absurd h hpass
    · intro p hp
      exact absurd rfl hp

theorem offset_facts (cur d : Pos) (hd : d ∈ astarOffsets) :
    adj cur (cur.1 + d.1, cur.2 + d.2) ∧ (cur.1 + d.1, cur.2 + d.2) ≠ cur := by
  unfold astarOffsets at hd
  obtain ⟨r, c⟩ := cur
  fin_cases hd <;>
    exact ⟨by unfold adj manhattan; simp, by simp [Prod.ext_iff]⟩

theorem mem_neighborsOf_iff (cur m : Pos) :
    m ∈ neighborsOf cur ↔ ∃ d ∈ astarOffsets, m = (cur.1 + d.1, cur.2 + d.2) := by
  unfold neighborsOf
  rw [List.mem_map]
  constructor
  · rintro ⟨d, hd, rfl⟩
    exact ⟨d, hd, rfl⟩
  · rintro ⟨d, hd, rfl⟩
    exact ⟨d, hd, rfl⟩

/-- Composite specification of the neighbor-expansion fold. -/
theorem expandFold_spec (G : GridCtx) (start goal cur : Pos) (gc : Nat) :
    ∀ (ds : List Pos) (st : AState),
      AInvCore G start goal st →
      st.gScore cur = some gc →
      (∀ d ∈ ds, d ∈ astarOffsets) →
      AInvCore G start goal (ds.foldl
        (fun s d => relaxNeighbor G goal cur (cur.1 + d.1, cur.2 + d.2) s) st)
      ∧ (∀ e ∈ st.openSet, e ∈ (ds.foldl
          (fun s d => relaxNeighbor G goal cur (cur.1 + d.1, cur.2 + d.2) s) st).openSet)
      ∧ (∀ p g, st.gScore p = some g → ∃ g2, (ds.foldl
          (fun s d => relaxNeighbor G goal cur (cur.1 + d.1, cur.2 + d.2) s) st).gScore p
            = some g2 ∧ g2 ≤ g)
      ∧ (ds.foldl
          (fun s d => relaxNeighbor G goal cur (cur.1 + d.1, cur.2 + d.2) s) st).gScore cur
          = some gc
      ∧ (∀ d ∈ ds, G.passable (cur.1 + d.1, cur.2 + d.2) = true →
          ∃ gm, (ds.foldl
            (fun s d => relaxNeighbor G goal cur (cur.1 + d.1, cur.2 + d.2) s) st).gScore
              (cur.1 + d.1, cur.2 + d.2) = some gm ∧ gm ≤ gc + 1)
      ∧ (∀ p, (ds.foldl
          (fun s d => relaxNeighbor G goal cur (cur.1 + d.1, cur.2 + d.2) s) st).gScore p
            ≠ st.gScore p →
          ∃ g2, (ds.foldl
            (fun s d => relaxNeighbor G goal cur (cur.1 + d.1, cur.2 + d.2) s) st).gScore p
              = some g2
            ∧ ((g2 + manhattan p goal, p) ∈ (ds.foldl
              (fun s d => relaxNeighbor G goal cur (cur.1 + d.1, cur.2 + d.2) s)
                st).openSet)
            ∧ adj cur p ∧ G.passable p = true)
      ∧ measureA G start (ds.foldl
          (fun s d => relaxNeighbor G goal cur (cur.1 + d.1, cur.2 + d.2) s) st)
          ≤ measureA G start st := by
  intro ds
  induction ds with
  | nil =>
    intro st hcore hgc _
    exact ⟨hcore, fun e he => he, fun p g hp => ⟨g, hp, le_refl _⟩, hgc,
      fun d hd => absurd hd (List.not_mem_nil d), fun p hp => absurd rfl hp, le_refl _⟩
  | cons d ds ih =>
    intro st hcore hgc hds
    have hdoff : d ∈ astarOffsets := hds d (List.mem_cons_self _ _)
    obtain ⟨hadj, hne⟩ := offset_facts cur d hdoff
    obtain ⟨core1, sup1, mono1, gcur1, rel1, chg1, meas1⟩ :=
      relax_spec G start goal cur (cur.1 + d.1, cur.2 + d.2) st gc hcore hadj hgc hne
    obtain ⟨core2, sup2, mono2, gcur2, rel2, chg2, meas2⟩ :=
      ih (relaxNeighbor G goal cur (cur.1 + d.1, cur.2 + d.2) st) core1 gcur1
        (fun d2 hd2 => hds d2 (List.mem_cons_of_mem _ hd2))
    rw [List.foldl_cons]
    refine ⟨core2, ?_, ?_, gcur2, ?_, ?_, le_trans meas2 meas1⟩
    · intro e he
      exact sup2 e (sup1 e he)
    · intro p g hp
      obtain ⟨g1, hp1, hle1⟩ := mono1 p g hp
      obtain ⟨g2, hp2, hle2⟩ := mono2 p g1 hp1
      exact ⟨g2, hp2, le_trans hle2 hle1⟩
    · intro d2 hd2 hpass2
      rcases List.mem_cons.mp hd2 with hd2 | hd2
      · subst hd2
        obtain ⟨gm, hgm, hgmle⟩ := rel1 hpass2
        obtain ⟨gm2, hgm2, hgm2le⟩ := mono2 _ gm hgm
        exact ⟨gm2, hgm2, by omega⟩
      · exact rel2 d2 hd2 hpass2
    · intro p hp
      by_cases hmid :
          (ds.foldl (fun s d => relaxNeighbor G goal cur (cur.1 + d.1, cur.2 + d.2) s)
              (relaxNeighbor G goal cur (cur.1 + d.1, cur.2 + d.2) st)).gScore p
            = (relaxNeighbor G goal cur (cur.1 + d.1, cur.2 + d.2) st).gScore p
      · have hp1 : (relaxNeighbor G goal cur (cur.1 + d.1, cur.2 + d.2) st).gScore p
            ≠ st.gScore p := by
          intro h
          exact hp (hmid.trans h)
        obtain ⟨hval, hmem, hadjp, hpassp⟩ := chg1 p hp1
        refine ⟨gc + 1, hmid.trans hval, ?_, hadjp, hpassp⟩
        exact sup2 _ hmem
      · exact chg2 p hmid

/-- One full loop iteration (pop + expansion) preserves the invariant and
strictly decreases the measure. -/
theorem step_preserve (G : GridCtx) (start goal : Pos) (st : AState) (f : Nat)
    (cur : Pos) (rest : List (Nat × Pos)) (hinv : AInv G start goal st)
    (hpop : popMin st.openSet = some ((f, cur), rest)) (hne : cur ≠ goal) :
    AInv G start goal (expandNeighbors G goal cur { st with openSet := rest })
    ∧ measureA G start (expandNeighbors G goal cur { st with openSet := rest })
        < measureA G start st := by
  have hperm := popMin_perm _ _ _ hpop
  have hmem_cur : (f, cur) ∈ st.openSet := hperm.mem_iff.mpr (List.mem_cons_self _ _)
  obtain ⟨gc, hgc, hgcf⟩ := hinv.entries f cur hmem_cur
  have hrest_sub : ∀ e ∈ rest, e ∈ st.openSet :=
    fun e he => hperm.mem_iff.mpr (List.mem_cons_of_mem _ he)
  have hbase_core : AInvCore G start goal { st with openSet := rest } := by
    refine ⟨?_, hinv.gReach, hinv.gLoc, hinv.gBound, hinv.gStart, ?_, hinv.cfChain,
      hinv.cfDom, hinv.cfStart⟩
    · intro f2 p hmem
      exact hinv.entries f2 p (hrest_sub _ hmem)
    · intro hp
      obtain ⟨f2, hf2⟩ := hinv.goalOpen hp
      have := hperm.mem_iff.mp hf2
      rcases List.mem_cons.mp this with h | h
      · simp only [Prod.mk.injEq] at h
        exact absurd h.2.symm hne
      · exact ⟨f2, h⟩
  obtain ⟨core2, sup2, mono2, gcur2, rel2, chg2, meas2⟩ :=
    expandFold_spec G start goal cur gc astarOffsets { st with openSet := rest }
      hbase_core hgc (fun _ hd => hd)
  have hlen : st.openSet.length = rest.length + 1 := by
    have := hperm.length_eq
    simpa using this
  have hmeaslt : measureA G start { st with openSet := rest } < measureA G start st := by
    unfold measureA
    simp only
    omega
  have hfold : expandNeighbors G goal cur { st with openSet := rest }
      = astarOffsets.foldl
          (fun s d => relaxNeighbor G goal cur (cur.1 + d.1, cur.2 + d.2) s)
          { st with openSet := rest } := rfl
  rw [hfold]
  constructor
  · refine ⟨core2, ?_⟩
    intro p g hg hshort
    by_cases hchg : (astarOffsets.foldl
          (fun s d => relaxNeighbor G goal cur (cur.1 + d.1, cur.2 + d.2) s)
          { st with openSet := rest }).gScore p
        = st.gScore p
    · have hstp : st.gScore p = some g := hchg ▸ hg
      rcases hinv.cover p g hstp hshort with ⟨f2, hf2mem, hf2le⟩ | hnbr
      · have hmem3 := hperm.mem_iff.mp hf2mem
        rcases List.mem_cons.mp hmem3 with h | h
        · -- the covering entry was the popped one: p = cur, use the expansion
          simp only [Prod.mk.injEq] at h
          obtain ⟨hf2f, hpcur⟩ := h
          right
          intro m hm hpassm
          rw [hpcur] at hm
          obtain ⟨dm, hdm, hmeq⟩ := (mem_neighborsOf_iff cur m).mp hm
          subst hmeq
          obtain ⟨gm, hgm, hgmle⟩ := rel2 dm hdm hpassm
          have hgceq : g = gc := by
            rw [hpcur, hgc] at hstp
            injection hstp with h2
            exact h2.symm
          exact ⟨gm, hgm, by omega⟩
        · exact Or.inl ⟨f2, sup2 _ h, hf2le⟩
      · right
        intro m hm hpassm
        obtain ⟨gm, hgm, hgmle⟩ := hnbr m hm hpassm
        obtain ⟨gm2, hgm2, hgm2le⟩ := mono2 m gm hgm
        exact ⟨gm2, hgm2, by omega⟩
    · obtain ⟨g2, hg2, hmem2, _, _⟩ := chg2 p hchg
      have hg2g : g2 = g := by
        rw [hg] at hg2
        injection hg2 with h2
        exact h2.symm
      subst hg2g
      exact Or.inl ⟨g2 + manhattan p goal, hmem2, le_refl _⟩
  · calc measureA G start (astarOffsets.foldl
          (fun s d => relaxNeighbor G goal cur (cur.1 + d.1, cur.2 + d.2) s)
          { st with openSet := rest })
        ≤ measureA G start { st with openSet := rest } := meas2
    _ < measureA G start st := hmeaslt

/-- The covering walk argument: along any shortest walk, either the target
is already optimally scored, or some open entry is at least as cheap as the
walk. -/
theorem cover_walk (G : GridCtx) (start goal : Pos) (st : AState)
    (hinv : AInv G start goal st) :
    ∀ (l : List Pos), ValidSeq G start l →
      IsShortest G start (lastPos start l) l.length →
      (∃ g, st.gScore (lastPos start l) = some g ∧ g = l.length)
      ∨ (∃ f2 w, (f2, w) ∈ st.openSet
          ∧ f2 ≤ l.length + manhattan (lastPos start l) goal) := by
  intro l
  induction l using List.reverseRecOn with
  | nil =>
    intro _ _
    exact Or.inl ⟨0, hinv.gStart, rfl⟩
  | append_singleton l t ih =>
    intro hv hshort
    have hlast : lastPos start (l ++ [t]) = t := by
      rw [lastPos_append]; rfl
    rw [hlast] at hshort ⊢
    have hsplit := (ValidSeq_append G start l [t]).mp hv
    have hvl : ValidSeq G start l := hsplit.1
    have hadj : adj (lastPos start l) t := hsplit.2.1
    have hpasst : G.passable t = true := hsplit.2.2.1
    have hshortp : IsShortest G start (lastPos start l) l.length :=
      shortest_init_seg G start (lastPos start l) t l hv hshort rfl
    have htri : manhattan (lastPos start l) goal ≤ 1 + manhattan t goal := by
      have h1 : manhattan (lastPos start l) t = 1 := hadj
      calc manhattan (lastPos start l) goal
          ≤ manhattan (lastPos start l) t + manhattan t goal := manhattan_triangle _ _ _
        _ = 1 + manhattan t goal := by rw [h1]
    rcases ih hvl hshortp with ⟨g, hgp, hge⟩ | ⟨f2, w, hmem, hle⟩
    · rcases hinv.cover (lastPos start l) g hgp (by rw [hge]; exact hshortp)
        with ⟨f2, hmem, hle⟩ | hnbr
      · refine Or.inr ⟨f2, lastPos start l, hmem, ?_⟩
        simp only [List.length_append, List.length_singleton]
        omega
      · have htmem : t ∈ neighborsOf (lastPos start l) :=
          adj_mem_neighborsOf (lastPos start l) t hadj
        obtain ⟨gt, hgt, hgtle⟩ := hnbr t htmem hpasst
        left
        refine ⟨gt, hgt, ?_⟩
        have hreach := hinv.gReach t gt hgt
        have hmin := hshort.2 gt hreach
        simp only [List.length_append, List.length_singleton] at hmin ⊢
        omega
    · refine Or.inr ⟨f2, w, hmem, ?_⟩
      simp only [List.length_append, List.length_singleton]
      omega

/-- When the goal is popped from the heap, its g-score is the true shortest
distance. -/
theorem goal_pop_shortest (G : GridCtx) (start goal : Pos) (st : AState) (f : Nat)
    (rest : List (Nat × Pos)) (hinv : AInv G start goal st)
    (hpop : popMin st.openSet = some ((f, goal), rest)) :
    ∃ g, st.gScore goal = some g ∧ IsShortest G start goal g := by
  have hperm := popMin_perm _ _ _ hpop
  have hmem : (f, goal) ∈ st.openSet := hperm.mem_iff.mpr (List.mem_cons_self _ _)
  obtain ⟨g, hg, hgf⟩ := hinv.entries f goal hmem
  refine ⟨g, hg, ?_⟩
  have hreach : Reachable G start goal := ⟨g, hinv.gReach goal g hg⟩
  obtain ⟨n, hshort⟩ := exists_isShortest G start goal hreach
  have hng : n ≤ g := hshort.2 g (hinv.gReach goal g hg)
  by_cases heq : g = n
  · rw [heq]; exact hshort
  · exfalso
    obtain ⟨l, hvl, hll, hlen⟩ := hshort.1
    have hcov := cover_walk G start goal st hinv l hvl
      (by rw [hll, hlen]; exact hshort)
    rw [hll] at hcov
    have hgoal0 : manhattan goal goal = 0 := by unfold manhattan; simp
    rcases hcov with ⟨g2, hg2, hg2e⟩ | ⟨f2, w, hmem2, hf2le⟩
    · rw [hg] at hg2
      injection hg2 with h2
      omega
    · have hminE := popMin_min _ _ _ hpop (f2, w) hmem2
      have hff2 := entryLE_fst _ _ hminE
      rw [hgoal0] at hgf
      rw [hlen, hgoal0] at hf2le
      simp only at hff2
      omega

/-- An exhausted heap means the goal is unreachable. -/
theorem empty_open_unreachable (G : GridCtx) (start goal : Pos) (st : AState)
    (hinv : AInv G start goal st) (hempty : st.openSet = []) :
    ¬ Reachable G start goal := by
  intro hreach
  obtain ⟨n, hshort⟩ := exists_isShortest G start goal hreach
  obtain ⟨l, hvl, hll, hlen⟩ := hshort.1
  have hcov := cover_walk G start goal st hinv l hvl (by rw [hll, hlen]; exact hshort)
  rw [hll] at hcov
  rcases hcov with ⟨g, hg, _⟩ | ⟨f2, w, hmem, _⟩
  · obtain ⟨f2, hf2⟩ := hinv.goalOpen (by rw [hg]; rfl)
    rw [hempty] at hf2
    cases hf2
  · rw [hempty] at hmem
    cases hmem

/-- Walking the `came_from` chain from any scored node yields a valid walk
from the start whose length is at most the node's g-score. -/
theorem reconstruct_spec (G : GridCtx) (start goal : Pos) (st : AState)
    (hcore : AInvCore G start goal st) :
    ∀ (g : Nat) (p : Pos) (fuel : Nat), st.gScore p = some g → g ≤ fuel →
      ∃ steps, reconstructPath st.cameFrom fuel p = start :: steps
        ∧ ValidSeq G start steps ∧ lastPos start steps = p ∧ steps.length ≤ g := by
  intro g
  induction g using Nat.strong_induction_on with
  | _ g ih =>
    intro p fuel hp hfuel
    rcases hcf : st.cameFrom p with _ | q
    · have hpstart : p = start := by
        rcases hcore.cfDom p (by rw [hp]; rfl) with h | h
        · exact h
        · rw [hcf] at h
          cases h
      subst hpstart
      refine ⟨[], ?_, trivial, rfl, by simp⟩
      cases fuel
      · rfl
      · simp [reconstructPath, hcf]
    · obtain ⟨hadj, hpassp, gp, gq, hgp, hgq, hle⟩ := hcore.cfChain p q hcf
      have hgpe : gp = g := by
        rw [hp] at hgp
        injection hgp with h2
        exact h2.symm
      rw [hgpe] at hle
      obtain ⟨fu, rfl⟩ : ∃ fu, fuel = fu + 1 := ⟨fuel - 1, by omega⟩
      obtain ⟨steps, hrec, hvs, hlast, hlen⟩ := ih gq (by omega) q fu hgq (by omega)
      refine ⟨steps ++ [p], ?_, ?_, ?_, ?_⟩
      · show reconstructPath st.cameFrom (fu + 1) p = start :: (steps ++ [p])
        simp only [reconstructPath]
        rw [hcf]
        dsimp only
        rw [hrec]
        rfl
      · rw [ValidSeq_append]
        refine ⟨hvs, ?_⟩
        rw [hlast]
        exact ⟨hadj, hpassp, trivial⟩
      · rw [lastPos_append]
        rfl
      · simp only [List.length_append, List.length_singleton]
        omega

/-- The while-loop of `_a_star_pathfinding`, run with enough fuel from an
invariant state, always returns; `None` exactly on unreachability, and any
returned path is a shortest valid walk. -/
theorem astarLoop_spec (G : GridCtx) (start goal : Pos) (inc : Bool) :
    ∀ (fuel : Nat) (st : AState), AInv G start goal st →
      measureA G start st < fuel →
      ∃ r, astarLoop G goal inc fuel st = some r
        ∧ (r = none → ¬ Reachable G start goal)
        ∧ (∀ p, r = some p → ∃ steps, ValidSeq G start steps
            ∧ lastPos start steps = goal ∧ IsShortest G start goal steps.length
            ∧ p = (if inc then start :: steps else steps)) := by
  intro fuel
  induction fuel with
  | zero =>
    intro st _ h
    omega
  | succ fuel ih =>
    intro st hinv hmeas
    rcases hpop : popMin st.openSet with _ | ⟨⟨f, cur⟩, rest⟩
    · refine ⟨none, ?_, ?_, ?_⟩
      · show astarLoop G goal inc (fuel + 1) st = some none
        simp only [astarLoop]
        rw [hpop]
      · intro _
        exact empty_open_unreachable G start goal st hinv ((popMin_eq_none _).mp hpop)
      · intro p hp
        cases hp
    · by_cases hcur : cur = goal
      · obtain ⟨g, hg, hshort⟩ := goal_pop_shortest G start goal st f rest hinv
          (by rw [← hcur]; exact hpop)
        have hgfuel : g ≤ aStarFuel G := by
          have h1 := hinv.gBound goal g hg
          have h2 := domCard_le_U G start st
          have h3 : G.rows * G.cols + 2 ≤ aStarFuel G := by
            unfold aStarFuel
            exact Nat.le_mul_of_pos_left _ (by omega)
          omega
        obtain ⟨steps, hrec, hvs, hlast, hlen⟩ :=
          reconstruct_spec G start goal st hinv.toAInvCore g goal (aStarFuel G) hg hgfuel
        have hlenge : g ≤ steps.length := hshort.2 steps.length ⟨steps, hvs, hlast, rfl⟩
        have hleneq : steps.length = g := by omega
        refine ⟨some (if inc then reconstructPath st.cameFrom (aStarFuel G) goal
            else (reconstructPath st.cameFrom (aStarFuel G) goal).tail), ?_, ?_, ?_⟩
        · simp only [astarLoop]
          rw [hpop]
          dsimp only
          rw [if_pos hcur, hcur]
        · intro h
          cases h
        · intro p hp
          injection hp with hp2
          refine ⟨steps, hvs, hlast, by rw [hleneq]; exact hshort, ?_⟩
          rw [← hp2, hrec]
          cases inc <;> simp
      · obtain ⟨hinv2, hmeas2⟩ := step_preserve G start goal st f cur rest hinv hpop hcur
        obtain ⟨r, hr, hnone, hsome⟩ :=
          ih (expandNeighbors G goal cur { st with openSet := rest }) hinv2 (by omega)
        refine ⟨r, ?_, hnone, hsome⟩
        simp only [astarLoop]
        rw [hpop]
        dsimp only
        rw [if_neg hcur]
        exact hr

/-- The initial A* state satisfies the loop invariant. -/
theorem initial_inv (G : GridCtx) (start goal : Pos) :
    AInv G start goal (initialState G start goal) := by
  have hgs : (initialState G start goal).gScore start = some 0 := by
    show (if start = start then some 0 else none) = some 0
    rw [if_pos rfl]
  have hdom : 0 < domCard G start (initialState G start goal) := by
    unfold domCard
    rw [Finset.card_pos]
    refine ⟨start, ?_⟩
    rw [Finset.mem_filter]
    refine ⟨Finset.mem_insert_self _ _, ?_⟩
    rw [hgs]
    rfl
  have hgonly : ∀ p g, (initialState G start goal).gScore p = some g →
      p = start ∧ g = 0 := by
    intro p g hp
    have hp2 : (if p = start then some 0 else none) = some g := hp
    by_cases hpe : p = start
    · rw [if_pos hpe] at hp2
      injection hp2 with h2
      exact ⟨hpe, h2.symm⟩
    · rw [if_neg hpe] at hp2
      cases hp2
  refine ⟨⟨?_, ?_, ?_, ?_, hgs, ?_, ?_, ?_, ?_⟩, ?_⟩
  · intro f p hmem
    simp only [initialState, List.mem_singleton, Prod.mk.injEq] at hmem
    obtain ⟨hf, hp⟩ := hmem
    refine ⟨0, by rw [hp]; exact hgs, by rw [hp, hf]; omega⟩
  · intro p g hp
    obtain ⟨hp1, hp2⟩ := hgonly p g hp
    rw [hp1, hp2]
    exact ⟨[], trivial, rfl, rfl⟩
  · intro p hp
    rcases hg : (initialState G start goal).gScore p with _ | g
    · rw [hg] at hp
      cases hp
    · exact Or.inl (hgonly p g hg).1
  · intro p g hp
    obtain ⟨_, hp2⟩ := hgonly p g hp
    rw [hp2]
    exact hdom
  · intro hp
    rcases hg : (initialState G start goal).gScore goal with _ | g
    · rw [hg] at hp
      cases hp
    · obtain ⟨h1, _⟩ := hgonly goal g hg
      refine ⟨manhattan start goal, ?_⟩
      show _ ∈ [(manhattan start goal, start)]
      rw [h1]
      exact List.mem_singleton.mpr rfl
  · intro p q hpq
    cases hpq
  · intro p hp
    rcases hg : (initialState G start goal).gScore p with _ | g
    · rw [hg] at hp
      cases hp
    · exact Or.inl (hgonly p g hg).1
  · rfl
  · intro p g hp hshort
    obtain ⟨hp1, hp2⟩ := hgonly p g hp
    rw [hp1, hp2]
    left
    exact ⟨manhattan start goal, List.mem_singleton.mpr rfl, by omega⟩

/-- The initial measure fits inside the fuel budget. -/
theorem initial_measure (G : GridCtx) (start goal : Pos) :
    measureA G start (initialState G start goal) < aStarFuel G := by
  unfold measureA aStarFuel
  have hlen : (initialState G start goal).openSet.length = 1 := rfl
  have hsum : (∑ p ∈ measFin G start,
      ((initialState G start goal).gScore p).getD (G.rows * G.cols + 1))
      ≤ (measFin G start).card * (G.rows * G.cols + 1) := by
    calc (∑ p ∈ measFin G start,
          ((initialState G start goal).gScore p).getD (G.rows * G.cols + 1))
        ≤ ∑ _p ∈ measFin G start, (G.rows * G.cols + 1) := by
          apply Finset.sum_le_sum
          intro p _
          show ((if p = start then some 0 else none).getD (G.rows * G.cols + 1))
            ≤ G.rows * G.cols + 1
          split <;> simp
      _ = (measFin G start).card * (G.rows * G.cols + 1) := by
          rw [Finset.sum_const, smul_eq_mul]
  have hcard := card_measFin_le G start
  have hsq : (G.rows * G.cols + 2) * (G.rows * G.cols + 2)
      = (G.rows * G.cols + 1) * (G.rows * G.cols + 1) + (2 * (G.rows * G.cols) + 3) := by
    ring
  have hmul : (measFin G start).card * (G.rows * G.cols + 1)
      ≤ (G.rows * G.cols + 1) * (G.rows * G.cols + 1) :=
    Nat.mul_le_mul_right (G.rows * G.cols + 1) hcard
  rw [hlen]
  omega

/-- A* correctness, assembled: `None` exactly on unreachability, returned
paths are shortest valid walks, and relaxation only acts on strict
improvement. -/
theorem astar_correct (G : GridCtx) (start goal : Pos) (inc : Bool) :
    (a_star_pathfinding G start goal inc = none ↔ ¬ Reachable G start goal)
    ∧ (∀ p, a_star_pathfinding G start goal inc = some p →
        ∃ steps, ValidSeq G start steps ∧ lastPos start steps = goal
          ∧ IsShortest G start goal steps.length
          ∧ p = (if inc then start :: steps else steps))
    ∧ (∀ (st : AState) (cur nb q : Pos),
        (relaxNeighbor G goal cur nb st).gScore q ≠ st.gScore q →
        q = nb
          ∧ (relaxNeighbor G goal cur nb st).gScore q
              = some ((st.gScore cur).getD 0 + 1)
          ∧ ∀ old, st.gScore q = some old → (st.gScore cur).getD 0 + 1 < old) := by
  obtain ⟨r, hr, hnone, hsome⟩ := astarLoop_spec G start goal inc (aStarFuel G)
    (initialState G start goal) (initial_inv G start goal) (initial_measure G start goal)
  have hjoin : a_star_pathfinding G start goal inc = r := by
    unfold a_star_pathfinding
    rw [hr]
    rfl
  refine ⟨?_, ?_, ?_⟩
  · rw [hjoin]
    constructor
    · intro hjn
      exact hnone hjn
    · intro hur
      rcases hre : r with _ | p
      · rfl
      · obtain ⟨steps, hvs, hlast, _, _⟩ := hsome p hre
        exact absurd ⟨steps.length, steps, hvs, hlast, rfl⟩ hur
  · intro p hp
    rw [hjoin] at hp
    exact hsome p hp
  · intro st cur nb q hchg
    by_cases hpass : G.passable nb = true
    · rcases hold : st.gScore nb with _ | old
      · have heq : relaxNeighbor G goal cur nb st
            = pushState G goal cur nb st ((st.gScore cur).getD 0 + 1) := by
          unfold relaxNeighbor pushState
          rw [if_pos hpass, hold]
          rfl
        rw [heq] at hchg ⊢
        by_cases hq : q = nb
        · refine ⟨hq, ?_, ?_⟩
          · show (if q = nb then _ else _) = _
            rw [if_pos hq]
          · intro o h
            rw [hq, hold] at h
            cases h
        · exfalso
          apply hchg
          show (if q = nb then _ else st.gScore q) = st.gScore q
          rw [if_neg hq]
      · by_cases himp : (st.gScore cur).getD 0 + 1 < old
        · have heq : relaxNeighbor G goal cur nb st
              = pushState G goal cur nb st ((st.gScore cur).getD 0 + 1) := by
            unfold relaxNeighbor pushState
            rw [if_pos hpass, hold]
            simp [himp]
          rw [heq] at hchg ⊢
          by_cases hq : q = nb
          · refine ⟨hq, ?_, ?_⟩
            · show (if q = nb then _ else _) = _
              rw [if_pos hq]
            · intro o h
              rw [hq, hold] at h
              injection h with h2
              rw [← h2]
              exact himp
          · exfalso
            apply hchg
            show (if q = nb then _ else st.gScore q) = st.gScore q
            rw [if_neg hq]
        · have heq : relaxNeighbor G goal cur nb st = st := by
            unfold relaxNeighbor
            rw [if_pos hpass, hold]
            simp [himp]
          rw [heq] at hchg
          exact absurd rfl hchg
    · have heq : relaxNeighbor G goal cur nb st = st := by
        unfold relaxNeighbor
        rw [if_neg hpass]
      rw [heq] at hchg
      exact absurd rfl hchg

/-- C1: `_a_star_pathfinding(start, goal, include_start)` returns `None`
exactly when no 4-connected walkable path from start to goal exists; when a
path is returned, its steps are 4-adjacent walkable cells ending at the
goal, its length equals the true shortest-path (BFS) distance, and the
start is prepended exactly when `include_start` is set.  Moreover a
neighbor's `g_score` entry is changed by relaxation only when the new
tentative value `g_score[current] + 1` is strictly smaller than the
existing one (and the change is exactly to that tentative value). -/
theorem C1_astar_finds_shortest (G : GridCtx) (start goal : Pos) (inc : Bool) :
    (a_star_pathfinding G start goal inc = none ↔ ¬ Reachable G start goal)
    ∧ (∀ p, a_star_pathfinding G start goal inc = some p →
        ∃ steps, ValidSeq G start steps ∧ lastPos start steps = goal
          ∧ IsShortest G start goal steps.length
          ∧ p = (if inc then start :: steps else steps))
    ∧ (∀ (st : AState) (cur nb q : Pos),
        (relaxNeighbor G goal cur nb st).gScore q ≠ st.gScore q →
        q = nb
          ∧ (relaxNeighbor G goal cur nb st).gScore q
              = some ((st.gScore cur).getD 0 + 1)
          ∧ ∀ old, st.gScore q = some old → (st.gScore cur).getD 0 + 1 < old) :=
  astar_correct G start goal inc

/-- Witness for C1: on the 1x2 open grid, A* from (0,0) to (0,1) returns
the one-step path, which is a valid shortest walk. -/
theorem C1_astar_finds_shortest_witness :
    a_star_pathfinding ⟨1, 2, (fun _ => '.'), (fun ch => ch == 'X')⟩
        ((0 : Int), (0 : Int)) ((0 : Int), (1 : Int)) false
      = some [((0 : Int), (1 : Int))]
    ∧ ValidSeq ⟨1, 2, (fun _ => '.'), (fun ch => ch == 'X')⟩ ((0 : Int), (0 : Int))
        [((0 : Int), (1 : Int))]
    ∧ lastPos ((0 : Int), (0 : Int)) [((0 : Int), (1 : Int))] = ((0 : Int), (1 : Int))
    ∧ IsShortest ⟨1, 2, (fun _ => '.'), (fun ch => ch == 'X')⟩ ((0 : Int), (0 : Int))
        ((0 : Int), (1 : Int)) 1 := by
  obtain ⟨steps, hvs, hlast, hshort, hps⟩ :=
    (C1_astar_finds_shortest ⟨1, 2, (fun _ => '.'), (fun ch => ch == 'X')⟩
      ((0 : Int), (0 : Int)) ((0 : Int), (1 : Int)) false).2.1
      [((0 : Int), (1 : Int))] (by decide)
  simp only [if_false, Bool.false_eq_true] at hps
  have hsteps : steps = [((0 : Int), (1 : Int))] := hps.symm
  have hlen : steps.length = 1 := by rw [hsteps]; rfl
  exact ⟨by decide, hsteps ▸ hvs, hsteps ▸ hlast, hlen ▸ hshort⟩

/- ### Random map generator (src/src/utils/map_utils.py lines 7-73, claim C2) -/

/-- A single `set_cell` write on a functional grid.  Every write the
generator performs is at an in-bounds coordinate, so the bounds check of
`Area.set_cell` always passes and the update is total. -/
def updCell (g : Pos → Char) (p : Pos) (v : Char) : Pos → Char :=
  fun q => if q = p then v else g q

/-- The coordinates visited by the generator's double loops
`for r in range(M): for c in range(N)`, in iteration order. -/
def gridCells (M N : Nat) : List Pos :=
  (List.range M).flatMap fun (r : Nat) =>
    (List.range N).map fun (c : Nat) => ((r : Int), (c : Int))

/-- The in-bounds cells of an `M x N` grid as a finset, used to count how
many cells hold a given character. -/
def cellsOf (M N : Nat) : Finset Pos :=
  ((Finset.range M) ×ˢ (Finset.range N)).image fun rc => ((rc.1 : Int), (rc.2 : Int))

/-- The walkability context of the flood fill and of the final map: a cell
counts as a wall exactly when it holds `'X'` (map_utils line 62). -/
def floodCtx (g : Pos → Char) (M N : Nat) : GridCtx :=
  ⟨M, N, g, fun ch => ch == 'X'⟩

/-- Step 2 of the generator (map_utils lines 16-28): the guaranteed path
from `start_pos` to `exit_pos`, computed by A* on a temporary open-field
map (`Area(M, N, default_value='.')` with an empty `non_walkable` set) and
including the start.
Modelled from the spec: `src/core/area.py` and `src/agents/a_star_agent.py`
are not present in the source snapshot.  Per spec section 4.1 the `Area` is
a dense `M x N` character grid whose cells here all read `'.'`, and per
spec section 4.2 `AStarAgent` runs the same A* search as
`Game._a_star_pathfinding` (src/game.py lines 171-200), so the embedded
`a_star_pathfinding` is called on the open grid context.  The source
comments "The pathfinder will never fail on an open map" and iterates the
result directly; the `none` case (proved impossible for in-bounds
endpoints) is read as the empty path. -/
def genPath (M N : Nat) (start_pos exit_pos : Pos) : List Pos :=
  (a_star_pathfinding ⟨M, N, fun _ => '.', fun _ => false⟩ start_pos exit_pos true).getD []

/-- Step 3 (map_utils lines 30-33): carve the guaranteed path into the map
that is initially filled with `'X'` walls. -/
def carveGrid (path : List Pos) : Pos → Char :=
  path.foldl (fun gg rc => updCell gg rc '.') (fun _ => 'X')

/-- Step 4 (map_utils lines 35-41): for every cell outside the guaranteed
path, open it (write `'.'`) when the random draw `random.random()`
exceeded `wall_density`; `open_choice p` is the outcome of that comparison
at cell `p`. -/
def sparsifyGrid (path : List Pos) (open_choice : Pos → Bool) (M N : Nat)
    (g : Pos → Char) : Pos → Char :=
  (gridCells M N).foldl
    (fun gg p => if p ∈ path then gg
      else if open_choice p then updCell gg p '.' else gg) g

/-- One neighbor check of the flood fill (map_utils lines 57-64): push the
neighbor onto the queue and the visited set when it is in-bounds, unseen
and not a wall.  The accumulator is the pair `(queue, visited)`. -/
def floodStep (g : Pos → Char) (M N : Nat) (p : Pos)
    (acc : List Pos × List Pos) (d : Pos) : List Pos × List Pos :=
  let nb : Pos := (p.1 + d.1, p.2 + d.2)
  if (0 ≤ nb.1 ∧ nb.1 < (M : Int) ∧ 0 ≤ nb.2 ∧ nb.2 < (N : Int))
      ∧ nb ∉ acc.2 ∧ g nb ≠ 'X'
  then (acc.1 ++ [nb], acc.2 ++ [nb]) else acc

/-- Step 6 (map_utils lines 47-64): the `while q:` BFS flood fill from the
player, collecting `reachable_cells`.  Queue, visited set and reachable
set are modelled as lists (`reachable_cells.add` is guarded to keep set
semantics); the fuel provably suffices. -/
def floodLoop (g : Pos → Char) (M N : Nat) :
    Nat → List Pos → List Pos → List Pos → List Pos
  | 0, _, _, reach => reach
  | fuel + 1, q, vis, reach =>
    match q with
    | [] => reach
    | p :: q2 =>
      let reach2 := if p ∈ reach then reach else reach ++ [p]
      let st := astarOffsets.foldl (floodStep g M N p) (q2, vis)
      floodLoop g M N fuel st.1 st.2 reach2

/-- Step 7 (map_utils lines 66-70): overwrite every cell the flood fill
did not reach with a wall. -/
def pruneGrid (reach : List Pos) (M N : Nat) (g : Pos → Char) : Pos → Char :=
  (gridCells M N).foldl (fun gg p => if p ∈ reach then gg else updCell gg p 'X') g

/-- `generate_random_map(M, N, wall_density)` (map_utils lines 7-73) with
the random draws made explicit: `r1, c1, r2, c2` are the four
`random.randint` results choosing `start_pos = (r1, c1)` and
`exit_pos = (r2, c2)` (lines 24-25), and `open_choice` records the
`random.random() > wall_density` outcomes of step 4.  Returns the final
grid contents together with the chosen start and exit. -/
def generate_random_map (M N : Nat) (r1 c1 r2 c2 : Nat) (open_choice : Pos → Bool) :
    (Pos → Char) × Pos × Pos :=
  let start_pos : Pos := ((r1 : Int), (c1 : Int))
  let exit_pos : Pos := ((r2 : Int), (c2 : Int))
  let guaranteed_path := genPath M N start_pos exit_pos
  let game_map2 := sparsifyGrid guaranteed_path open_choice M N (carveGrid guaranteed_path)
  let game_map3 := updCell (updCell game_map2 start_pos 'P') exit_pos 'E'
  let reach := floodLoop game_map3 M N (M * N + 2) [start_pos] [start_pos] []
  (pruneGrid reach M N game_map3, start_pos, exit_pos)

theorem mem_cellsOf (M N : Nat) (p : Pos) :
    p ∈ cellsOf M N ↔
      0 ≤ p.1 ∧ p.1 < (M : Int) ∧ 0 ≤ p.2 ∧ p.2 < (N : Int) :=
  mem_cellsFin ⟨M, N, fun _ => '.', fun _ => false⟩ p

theorem card_cellsOf_le (M N : Nat) : (cellsOf M N).card ≤ M * N :=
  card_cellsFin_le ⟨M, N, fun _ => '.', fun _ => false⟩

theorem mem_gridCells (M N : Nat) (p : Pos) :
    p ∈ gridCells M N ↔
      0 ≤ p.1 ∧ p.1 < (M : Int) ∧ 0 ≤ p.2 ∧ p.2 < (N : Int) := by
  obtain ⟨x, y⟩ := p
  unfold gridCells
  simp only [List.mem_flatMap, List.mem_map, List.mem_range]
  constructor
  · rintro ⟨r, hr, c, hc, heq⟩
    simp only [Prod.mk.injEq] at heq
    obtain ⟨rfl, rfl⟩ := heq
    exact ⟨by omega, by omega, by omega, by omega⟩
  · rintro ⟨h1, h2, h3, h4⟩
    refine ⟨x.toNat, by omega, y.toNat, by omega, ?_⟩
    simp only [Prod.mk.injEq]
    omega

theorem passable_floodCtx (g : Pos → Char) (M N : Nat) (p : Pos) :
    (floodCtx g M N).passable p = true ↔
      (0 ≤ p.1 ∧ p.1 < (M : Int) ∧ 0 ≤ p.2 ∧ p.2 < (N : Int)) ∧ g p ≠ 'X' := by
  unfold floodCtx GridCtx.passable
  simp [and_assoc]

theorem carve_val (l : List Pos) : ∀ (g : Pos → Char) (p : Pos),
    (l.foldl (fun gg rc => updCell gg rc '.') g) p = if p ∈ l then '.' else g p := by
  induction l with
  | nil => intro g p; simp
  | cons a l ih =>
    intro g p
    rw [List.foldl_cons, ih]
    by_cases hl : p ∈ l
    · simp [hl]
    · by_cases ha : p = a
      · simp [hl, ha, updCell]
      · simp [hl, ha, updCell]

theorem sparsify_fold_val (path : List Pos) (oc : Pos → Bool) (l : List Pos) :
    ∀ (g : Pos → Char) (p : Pos),
    (l.foldl (fun gg q => if q ∈ path then gg
        else if oc q then updCell gg q '.' else gg) g) p =
      if p ∈ l ∧ p ∉ path ∧ oc p = true then '.' else g p := by
  induction l with
  | nil => intro g p; simp
  | cons a l ih =>
    intro g p
    rw [List.foldl_cons, ih]
    by_cases hl : p ∈ l ∧ p ∉ path ∧ oc p = true
    · simp [hl, List.mem_cons, hl.2.1, hl.2.2]
    · by_cases ha : p = a
      · subst ha
        by_cases hpath : p ∈ path
        · simp [hl, hpath]
        · by_cases hoc : oc p = true
          · simp [hpath, hoc, updCell]
          · simp [hl, hpath, hoc, updCell]
      · have hcond : ¬(p ∈ a :: l ∧ p ∉ path ∧ oc p = true) := by
          simp only [List.mem_cons]
          tauto
        simp only [hl, if_neg hcond, if_neg hl]
        by_cases hpath : a ∈ path
        · simp [hpath]
        · by_cases hoc : oc a = true
          · simp [hpath, hoc, updCell, ha]
          · simp [hpath, hoc]

theorem prune_fold_val (reach : List Pos) (l : List Pos) :
    ∀ (g : Pos → Char) (p : Pos),
    (l.foldl (fun gg q => if q ∈ reach then gg else updCell gg q 'X') g) p =
      if p ∈ l ∧ p ∉ reach then 'X' else g p := by
  induction l with
  | nil => intro g p; simp
  | cons a l ih =>
    intro g p
    rw [List.foldl_cons, ih]
    by_cases hl : p ∈ l ∧ p ∉ reach
    · simp [hl, List.mem_cons, hl.2]
    · by_cases ha : p = a
      · subst ha
        by_cases hreach : p ∈ reach
        · simp [hl, hreach]
        · simp [hreach, updCell]
      · have hcond : ¬(p ∈ a :: l ∧ p ∉ reach) := by
          simp only [List.mem_cons]
          tauto
        simp only [if_neg hcond, if_neg hl]
        by_cases hreach : a ∈ reach
        · simp [hreach]
        · simp [hreach, updCell, ha]

theorem nodup_gridCells (M N : Nat) : (gridCells M N).Nodup := by
  unfold gridCells
  rw [List.nodup_flatMap]
  constructor
  · intro r _
    refine (List.nodup_range N).map ?_
    intro a b h
    have := congrArg Prod.snd h
    simpa using this
  · refine List.Pairwise.imp ?_ (List.pairwise_lt_range M)
    intro a b hab
    simp only [Function.onFun]
    rw [List.disjoint_left]
    rintro x hx1 hx2
    rw [List.mem_map] at hx1 hx2
    obtain ⟨c1, _, heq1⟩ := hx1
    obtain ⟨c2, _, heq2⟩ := hx2
    have h1 := congrArg Prod.fst heq1
    have h2 := congrArg Prod.fst heq2
    simp only at h1 h2
    rw [← h2] at h1
    simp at h1
    omega

theorem vis_length_le (M N : Nat) (s : Pos) (vis : List Pos) (hnd : vis.Nodup)
    (hsub : ∀ x ∈ vis, x = s ∨ x ∈ cellsOf M N) : vis.length ≤ M * N + 1 := by
  have hcard : vis.toFinset.card = vis.length := List.toFinset_card_of_nodup hnd
  have hsubF : vis.toFinset ⊆ insert s (cellsOf M N) := by
    intro x hx
    rw [List.mem_toFinset] at hx
    rcases hsub x hx with rfl | hc
    · exact Finset.mem_insert_self _ _
    · exact Finset.mem_insert_of_mem hc
  have := Finset.card_le_card hsubF
  have hins := Finset.card_insert_le s (cellsOf M N)
  have := card_cellsOf_le M N
  omega

/-- A walk stays valid in another grid context in which all its cells are
passable (adjacency does not depend on the grid). -/
theorem ValidSeq_mono (G1 G2 : GridCtx) :
    ∀ (l : List Pos) (s : Pos), ValidSeq G1 s l →
      (∀ p ∈ l, G2.passable p = true) → ValidSeq G2 s l := by
  intro l
  induction l with
  | nil => intro s _ _; trivial
  | cons x xs ih =>
    intro s hv hp
    obtain ⟨hadj, _, hrest⟩ := hv
    exact ⟨hadj, hp x (List.mem_cons_self x xs), ih x hrest
      fun q hq => hp q (List.mem_cons_of_mem x hq)⟩

/-- Every cell of a valid walk is passable. -/
theorem ValidSeq_passable (G : GridCtx) :
    ∀ (l : List Pos) (s : Pos), ValidSeq G s l →
      ∀ p ∈ l, G.passable p = true := by
  intro l
  induction l with
  | nil => intro s _ p hp; cases hp
  | cons x xs ih =>
    intro s hv p hp
    obtain ⟨_, hpx, hrest⟩ := hv
    rcases List.mem_cons.mp hp with rfl | hp
    · exact hpx
    · exact ih x hrest p hp

/-- Every cell visited along a valid walk is itself reachable. -/
theorem mem_walk_reachable (G : GridCtx) :
    ∀ (l : List Pos) (s m : Pos), ValidSeq G s l → m ∈ l → Reachable G s m := by
  intro l
  induction l with
  | nil => intro s m _ hm; cases hm
  | cons x xs ih =>
    intro s m hv hm
    obtain ⟨hadj, hpx, hrest⟩ := hv
    rcases List.mem_cons.mp hm with rfl | hm
    · exact ⟨1, [m], ⟨hadj, hpx, trivial⟩, rfl, rfl⟩
    · obtain ⟨n, l2, hv2, hl2, hn⟩ := ih x m hrest hm
      refine ⟨n + 1, x :: l2, ⟨hadj, hpx, hv2⟩, ?_, by simp [hn]⟩
      rw [lastPos_cons]
      exact hl2

/-- A set of cells that contains the start and is closed under passable
4-neighbors contains the endpoint of every valid walk from the start. -/
theorem walk_in_closed_set (G : GridCtx) (S : List Pos)
    (hclosed : ∀ v ∈ S, ∀ m, adj v m → G.passable m = true → m ∈ S) :
    ∀ (l : List Pos) (s : Pos), s ∈ S → ValidSeq G s l → lastPos s l ∈ S := by
  intro l
  induction l with
  | nil => intro s hs _; simpa [lastPos_nil] using hs
  | cons x xs ih =>
    intro s hs hv
    obtain ⟨hadj, hp, hrest⟩ := hv
    rw [lastPos_cons]
    exact ih x (hclosed s hs x hadj hp) hrest

theorem ReachN_cons (G : GridCtx) (s n t : Pos) (k : Nat)
    (hadj : adj s n) (hp : G.passable n = true) (h : ReachN G n t k) :
    ReachN G s t (k + 1) := by
  obtain ⟨l, hv, hl, hk⟩ := h
  refine ⟨n :: l, ⟨hadj, hp, hv⟩, ?_, by simp [hk]⟩
  rw [lastPos_cons]
  exact hl

/-- On the open-field pathfinder map every pair of in-bounds cells is
connected: walk rows first, then columns. -/
theorem open_reachN (M N : Nat) (t : Pos)
    (ht : 0 ≤ t.1 ∧ t.1 < (M : Int) ∧ 0 ≤ t.2 ∧ t.2 < (N : Int)) :
    ∀ (d : Nat) (s : Pos),
      (0 ≤ s.1 ∧ s.1 < (M : Int) ∧ 0 ≤ s.2 ∧ s.2 < (N : Int)) →
      manhattan s t = d →
      ReachN ⟨M, N, fun _ => '.', fun _ => false⟩ s t d := by
  intro d
  induction d with
  | zero =>
    intro s _ hd
    have := manhattan_eq_zero s t hd
    subst this
    exact ⟨[], trivial, rfl, rfl⟩
  | succ d ih =>
    intro s hs hd
    obtain ⟨n, hn, hnB, hnd⟩ :=
      toward_exit ⟨M, N, fun _ => false, t⟩ s d hd hs ht
    refine ReachN_cons _ s n t d (greedyNeighbors_adj s n hn) ?_ (ih n hnB hnd)
    unfold GridCtx.passable
    simp only [Bool.not_false, Bool.and_true, Bool.and_eq_true, decide_eq_true_eq]
    exact ⟨⟨⟨hnB.1, hnB.2.1⟩, hnB.2.2.1⟩, hnB.2.2.2⟩

theorem open_reachable (M N : Nat) (s t : Pos)
    (hs : 0 ≤ s.1 ∧ s.1 < (M : Int) ∧ 0 ≤ s.2 ∧ s.2 < (N : Int))
    (ht : 0 ≤ t.1 ∧ t.1 < (M : Int) ∧ 0 ≤ t.2 ∧ t.2 < (N : Int)) :
    Reachable ⟨M, N, fun _ => '.', fun _ => false⟩ s t :=
  ⟨manhattan s t, open_reachN M N t ht (manhattan s t) s hs rfl⟩

/-- The neighbor-scan fold of one flood-fill iteration appends the same
block `Δ` of newly discovered cells to both the queue and the visited set;
the new cells are in-bounds non-walls adjacent to the popped cell and
unseen before, and every in-bounds non-wall neighbor ends up visited. -/
theorem floodFold_spec (g : Pos → Char) (M N : Nat) (p : Pos) :
    ∀ (ms : List Pos), (∀ d ∈ ms, d ∈ astarOffsets) →
    ∀ (q2 vis : List Pos), ∃ Δ : List Pos,
      ms.foldl (floodStep g M N p) (q2, vis) = (q2 ++ Δ, vis ++ Δ)
      ∧ (vis.Nodup → (vis ++ Δ).Nodup)
      ∧ (∀ x ∈ Δ, (0 ≤ x.1 ∧ x.1 < (M : Int) ∧ 0 ≤ x.2 ∧ x.2 < (N : Int))
          ∧ g x ≠ 'X' ∧ adj p x ∧ x ∉ vis)
      ∧ (∀ d ∈ ms,
          (0 ≤ p.1 + d.1 ∧ p.1 + d.1 < (M : Int) ∧ 0 ≤ p.2 + d.2 ∧ p.2 + d.2 < (N : Int)) →
          g (p.1 + d.1, p.2 + d.2) ≠ 'X' →
          ((p.1 + d.1, p.2 + d.2) : Pos) ∈ vis ++ Δ) := by
  intro ms
  induction ms with
  | nil =>
    intro _ q2 vis
    exact ⟨[], by simp, by simp, by simp, by simp⟩
  | cons d ms ih =>
    intro hms q2 vis
    rw [List.foldl_cons]
    by_cases hcond : (0 ≤ p.1 + d.1 ∧ p.1 + d.1 < (M : Int)
          ∧ 0 ≤ p.2 + d.2 ∧ p.2 + d.2 < (N : Int))
        ∧ ((p.1 + d.1, p.2 + d.2) : Pos) ∉ vis ∧ g (p.1 + d.1, p.2 + d.2) ≠ 'X'
    · have hstep : floodStep g M N p (q2, vis) d
          = (q2 ++ [(p.1 + d.1, p.2 + d.2)], vis ++ [(p.1 + d.1, p.2 + d.2)]) := by
        simp only [floodStep]
        rw [if_pos hcond]
      rw [hstep]
      obtain ⟨Δ, hfold, hnd, hprops, hcover⟩ :=
        ih (fun x hx => hms x (List.mem_cons_of_mem d hx))
          (q2 ++ [(p.1 + d.1, p.2 + d.2)]) (vis ++ [(p.1 + d.1, p.2 + d.2)])
      refine ⟨(p.1 + d.1, p.2 + d.2) :: Δ, ?_, ?_, ?_, ?_⟩
      · rw [hfold]
        simp
      · intro hv
        have hnb : (vis ++ [((p.1 + d.1, p.2 + d.2) : Pos)]).Nodup := by
          rw [List.nodup_append]
          refine ⟨hv, List.nodup_singleton _, ?_⟩
          intro a ha hab
          rw [List.mem_singleton] at hab
          exact hcond.2.1 (hab ▸ ha)
        have hres := hnd hnb
        rw [List.append_assoc, List.singleton_append] at hres
        exact hres
      · intro x hx
        rcases List.mem_cons.mp hx with rfl | hx
        · exact ⟨hcond.1, hcond.2.2,
            (offset_facts p d (hms d (List.mem_cons_self d ms))).1, hcond.2.1⟩
        · obtain ⟨hb, hX, hadj, hnv⟩ := hprops x hx
          refine ⟨hb, hX, hadj, fun hxv => hnv (List.mem_append_left _ hxv)⟩
      · intro d' hd' hb hX
        rcases List.mem_cons.mp hd' with rfl | hd'
        · refine List.mem_append_right _ (List.mem_cons_self _ _)
        · have hres := hcover d' hd' hb hX
          rw [List.append_assoc, List.singleton_append] at hres
          exact hres
    · have hstep : floodStep g M N p (q2, vis) d = (q2, vis) := by
        simp only [floodStep]
        rw [if_neg hcond]
      rw [hstep]
      obtain ⟨Δ, hfold, hnd, hprops, hcover⟩ :=
        ih (fun x hx => hms x (List.mem_cons_of_mem d hx)) q2 vis
      refine ⟨Δ, hfold, hnd, hprops, ?_⟩
      intro d' hd' hb hX
      rcases List.mem_cons.mp hd' with rfl | hd'
      · have hmem : ((p.1 + d'.1, p.2 + d'.2) : Pos) ∈ vis := by
          by_contra hnv
          exact hcond ⟨hb, hnv, hX⟩
        exact List.mem_append_left _ hmem
      · exact hcover d' hd' hb hX

/-- When the queue has drained, the collected reachable set is exactly the
set of cells reachable from the start. -/
theorem flood_terminal (g : Pos → Char) (M N : Nat) (s : Pos)
    (vis reach : List Pos)
    (J2 : ∀ p ∈ vis, p ∈ reach)
    (J3 : ∀ p ∈ reach, p ∈ vis)
    (J4 : ∀ p ∈ vis, Reachable (floodCtx g M N) s p)
    (J5 : ∀ p ∈ reach, ∀ m, adj p m → (floodCtx g M N).passable m = true → m ∈ vis)
    (J6 : s ∈ vis) :
    (∀ p ∈ reach, Reachable (floodCtx g M N) s p)
    ∧ (∀ p, Reachable (floodCtx g M N) s p → p ∈ reach) := by
  refine ⟨fun p hp => J4 p (J3 p hp), ?_⟩
  intro p hp
  obtain ⟨n, l, hv, hl, _⟩ := hp
  have hclosed : ∀ v ∈ reach, ∀ m, adj v m →
      (floodCtx g M N).passable m = true → m ∈ reach :=
    fun v hvr m hadj hpm => J2 m (J5 v hvr m hadj hpm)
  have hlast := walk_in_closed_set (floodCtx g M N) reach hclosed l s (J2 s J6) hv
  rw [hl] at hlast
  exact hlast

/-- The flood-fill loop invariant: with a queue covered by the visited
set, a visited set of reachable cells that is settled (in `reach`) or
pending (in the queue), a reachable set whose passable neighbors are all
visited, and enough fuel for the measure, the loop computes exactly the
reachable cells. -/
theorem floodLoop_spec (g : Pos → Char) (M N : Nat) (s : Pos) :
    ∀ (fuel : Nat) (q vis reach : List Pos),
      (∀ p ∈ q, p ∈ vis) →
      (∀ p ∈ vis, p ∈ reach ∨ p ∈ q) →
      (∀ p ∈ reach, p ∈ vis) →
      (∀ p ∈ vis, Reachable (floodCtx g M N) s p) →
      (∀ p ∈ reach, ∀ m, adj p m → (floodCtx g M N).passable m = true → m ∈ vis) →
      s ∈ vis →
      vis.Nodup →
      (∀ p ∈ vis, p = s ∨ p ∈ cellsOf M N) →
      M * N + 1 + q.length ≤ fuel + vis.length →
      (∀ p ∈ floodLoop g M N fuel q vis reach, Reachable (floodCtx g M N) s p)
      ∧ (∀ p, Reachable (floodCtx g M N) s p →
          p ∈ floodLoop g M N fuel q vis reach) := by
  intro fuel
  induction fuel with
  | zero =>
    intro q vis reach J1 J2 J3 J4 J5 J6 J7 J8 hmeas
    have hlen := vis_length_le M N s vis J7 J8
    cases q with
    | nil =>
      exact flood_terminal g M N s vis reach
        (fun p hp => (J2 p hp).resolve_right (by simp)) J3 J4 J5 J6
    | cons a q2 =>
      exact absurd hlen (by simp only [List.length_cons] at hmeas; omega)
  | succ fuel ih =>
    intro q vis reach J1 J2 J3 J4 J5 J6 J7 J8 hmeas
    cases q with
    | nil =>
      exact flood_terminal g M N s vis reach
        (fun p hp => (J2 p hp).resolve_right (by simp)) J3 J4 J5 J6
    | cons p q2 =>
      obtain ⟨Δ, hfold, hnd, hprops, hcover⟩ :=
        floodFold_spec g M N p astarOffsets (fun d hd => hd) q2 vis
      have hstep : floodLoop g M N (fuel + 1) (p :: q2) vis reach
          = floodLoop g M N fuel (q2 ++ Δ) (vis ++ Δ)
              (if p ∈ reach then reach else reach ++ [p]) := by
        show floodLoop g M N fuel
            (astarOffsets.foldl (floodStep g M N p) (q2, vis)).1
            (astarOffsets.foldl (floodStep g M N p) (q2, vis)).2
            (if p ∈ reach then reach else reach ++ [p])
          = _
        rw [hfold]
      rw [hstep]
      have hmem2 : ∀ x, x ∈ (if p ∈ reach then reach else reach ++ [p])
          ↔ x ∈ reach ∨ x = p := by
        intro x
        by_cases hp : p ∈ reach
        · rw [if_pos hp]
          constructor
          · exact Or.inl
          · rintro (h | rfl)
            · exact h
            · exact hp
        · rw [if_neg hp]
          simp
      have hpvis : p ∈ vis := J1 p (List.mem_cons_self _ _)
      have K1 : ∀ x ∈ q2 ++ Δ, x ∈ vis ++ Δ := by
        intro x hx
        rcases List.mem_append.mp hx with hx | hx
        · exact List.mem_append_left _ (J1 x (List.mem_cons_of_mem p hx))
        · exact List.mem_append_right _ hx
      have K2 : ∀ x ∈ vis ++ Δ,
          x ∈ (if p ∈ reach then reach else reach ++ [p]) ∨ x ∈ q2 ++ Δ := by
        intro x hx
        rcases List.mem_append.mp hx with hx | hx
        · rcases J2 x hx with hr | hq
          · exact Or.inl ((hmem2 x).mpr (Or.inl hr))
          · rcases List.mem_cons.mp hq with rfl | hq2
            · exact Or.inl ((hmem2 x).mpr (Or.inr rfl))
            · exact Or.inr (List.mem_append_left _ hq2)
        · exact Or.inr (List.mem_append_right _ hx)
      have K3 : ∀ x ∈ (if p ∈ reach then reach else reach ++ [p]), x ∈ vis ++ Δ := by
        intro x hx
        rcases (hmem2 x).mp hx with hr | rfl
        · exact List.mem_append_left _ (J3 x hr)
        · exact List.mem_append_left _ hpvis
      have K4 : ∀ x ∈ vis ++ Δ, Reachable (floodCtx g M N) s x := by
        intro x hx
        rcases List.mem_append.mp hx with hx | hx
        · exact J4 x hx
        · obtain ⟨hb, hX, hadj, _⟩ := hprops x hx
          obtain ⟨n, hn⟩ := J4 p hpvis
          refine ⟨n + 1, ReachN_extend _ s p x n hn hadj ?_⟩
          rw [passable_floodCtx]
          exact ⟨hb, hX⟩
      have K5 : ∀ x ∈ (if p ∈ reach then reach else reach ++ [p]), ∀ m, adj x m →
          (floodCtx g M N).passable m = true → m ∈ vis ++ Δ := by
        intro x hx m hadj hpm
        rcases (hmem2 x).mp hx with hr | rfl
        · exact List.mem_append_left _ (J5 x hr m hadj hpm)
        · obtain ⟨d, hd, hmeq⟩ := (mem_neighborsOf_iff x m).mp (adj_mem_neighborsOf x m hadj)
          rw [passable_floodCtx] at hpm
          subst hmeq
          exact hcover d hd hpm.1 hpm.2
      have K6 : s ∈ vis ++ Δ := List.mem_append_left _ J6
      have K7 : (vis ++ Δ).Nodup := hnd J7
      have K8 : ∀ x ∈ vis ++ Δ, x = s ∨ x ∈ cellsOf M N := by
        intro x hx
        rcases List.mem_append.mp hx with hx | hx
        · exact J8 x hx
        · exact Or.inr ((mem_cellsOf M N x).mpr (hprops x hx).1)
      have hmeas2 : M * N + 1 + (q2 ++ Δ).length ≤ fuel + (vis ++ Δ).length := by
        simp only [List.length_append, List.length_cons] at hmeas ⊢
        omega
      exact ih (q2 ++ Δ) (vis ++ Δ) (if p ∈ reach then reach else reach ++ [p])
        K1 K2 K3 K4 K5 K6 K7 K8 hmeas2

/-- The map contents after steps 1-5 (walls, carved path, sparsified walls,
player and exit markers). -/
def genMap3 (M N : Nat) (oc : Pos → Bool) (s e : Pos) : Pos → Char :=
  updCell (updCell (sparsifyGrid (genPath M N s e) oc M N
    (carveGrid (genPath M N s e))) s 'P') e 'E'

/-- The `reachable_cells` set computed by the step-6 flood fill. -/
def genReach (M N : Nat) (oc : Pos → Bool) (s e : Pos) : List Pos :=
  floodLoop (genMap3 M N oc s e) M N (M * N + 2) [s] [s] []

/-- The final map contents after the step-7 pruning. -/
def genMap4 (M N : Nat) (oc : Pos → Bool) (s e : Pos) : Pos → Char :=
  pruneGrid (genReach M N oc s e) M N (genMap3 M N oc s e)

theorem generate_random_map_eq (M N r1 c1 r2 c2 : Nat) (oc : Pos → Bool) :
    generate_random_map M N r1 c1 r2 c2 oc
      = (genMap4 M N oc ((r1 : Int), (c1 : Int)) ((r2 : Int), (c2 : Int)),
         ((r1 : Int), (c1 : Int)), ((r2 : Int), (c2 : Int))) := rfl

/-- The flood fill started from `{s}` computes exactly the set of cells
reachable from `s` (the fuel `M*N + 2` suffices). -/
theorem floodResult_spec (g : Pos → Char) (M N : Nat) (s : Pos) :
    (∀ p ∈ floodLoop g M N (M * N + 2) [s] [s] [],
        Reachable (floodCtx g M N) s p)
    ∧ (∀ p, Reachable (floodCtx g M N) s p →
        p ∈ floodLoop g M N (M * N + 2) [s] [s] []) := by
  apply floodLoop_spec g M N s (M * N + 2) [s] [s] []
  · intro p hp; exact hp
  · intro p hp; exact Or.inr hp
  · intro p hp; cases hp
  · intro p hp
    rw [List.mem_singleton] at hp
    subst hp
    exact ⟨0, [], trivial, rfl, rfl⟩
  · intro p hp; cases hp
  · exact List.mem_singleton_self s
  · exact List.nodup_singleton s
  · intro p hp
    rw [List.mem_singleton] at hp
    exact Or.inl hp
  · simp

/-- Open-grid passability is exactly the bounds check. -/
theorem passable_open (M N : Nat) (p : Pos) :
    (⟨M, N, fun _ => '.', fun _ => false⟩ : GridCtx).passable p = true ↔
      0 ≤ p.1 ∧ p.1 < (M : Int) ∧ 0 ≤ p.2 ∧ p.2 < (N : Int) := by
  unfold GridCtx.passable
  simp [and_assoc]

/-- Main content of claim C2 for distinct in-bounds start and exit: the
generated map has the player exactly at the start, the exit exactly at the
exit draw, and every surviving non-wall cell reachable from the player. -/
theorem gen_map_main (M N : Nat) (oc : Pos → Bool) (s e : Pos)
    (hsB : 0 ≤ s.1 ∧ s.1 < (M : Int) ∧ 0 ≤ s.2 ∧ s.2 < (N : Int))
    (heB : 0 ≤ e.1 ∧ e.1 < (M : Int) ∧ 0 ≤ e.2 ∧ e.2 < (N : Int))
    (hse : s ≠ e) :
    ((cellsOf M N).filter fun p => genMap4 M N oc s e p = 'P').card = 1
    ∧ ((cellsOf M N).filter fun p => genMap4 M N oc s e p = 'E').card = 1
    ∧ genMap4 M N oc s e s = 'P' ∧ genMap4 M N oc s e e = 'E'
    ∧ ∀ p ∈ cellsOf M N, genMap4 M N oc s e p ≠ 'X' →
        Reachable (floodCtx (genMap4 M N oc s e) M N) s p := by
  have hreachO : Reachable ⟨M, N, fun _ => '.', fun _ => false⟩ s e :=
    open_reachable M N s e hsB heB
  have hcor := astar_correct ⟨M, N, fun _ => '.', fun _ => false⟩ s e true
  cases hres : a_star_pathfinding ⟨M, N, fun _ => '.', fun _ => false⟩ s e true with
  | none => exact absurd hreachO (hcor.1.mp hres)
  | some pp =>
    obtain ⟨steps, hvO, hlastO, _, hppeq⟩ := hcor.2.1 pp hres
    have hppeq2 : pp = s :: steps := by simpa using hppeq
    have hL : genPath M N s e = s :: steps := by
      unfold genPath
      rw [hres]
      exact hppeq2
    have hG1 : ∀ p, carveGrid (genPath M N s e) p
        = if p ∈ s :: steps then '.' else 'X' := by
      intro p
      unfold carveGrid
      rw [carve_val, hL]
    have hG2 : ∀ p, sparsifyGrid (genPath M N s e) oc M N (carveGrid (genPath M N s e)) p
        = if p ∈ gridCells M N ∧ p ∉ s :: steps ∧ oc p = true then '.'
          else if p ∈ s :: steps then '.' else 'X' := by
      intro p
      unfold sparsifyGrid
      rw [sparsify_fold_val, hG1 p, hL]
    have hG3 : ∀ p, genMap3 M N oc s e p
        = if p = e then 'E' else if p = s then 'P'
          else if p ∈ gridCells M N ∧ p ∉ s :: steps ∧ oc p = true then '.'
          else if p ∈ s :: steps then '.' else 'X' := by
      intro p
      simp only [genMap3, updCell]
      by_cases hpe : p = e
      · rw [if_pos hpe, if_pos hpe]
      · rw [if_neg hpe, if_neg hpe]
        by_cases hps : p = s
        · rw [if_pos hps, if_pos hps]
        · rw [if_neg hps, if_neg hps, hG2 p]
    have F1 : genMap3 M N oc s e s = 'P' := by
      rw [hG3 s, if_neg hse, if_pos rfl]
    have F2 : genMap3 M N oc s e e = 'E' := by
      rw [hG3 e, if_pos rfl]
    have F3 : ∀ p, genMap3 M N oc s e p = 'P' → p = s := by
      intro p hp
      rw [hG3 p] at hp
      by_cases hpe : p = e
      · rw [if_pos hpe] at hp; exact absurd hp (by decide)
      · rw [if_neg hpe] at hp
        by_cases hps : p = s
        · exact hps
        · rw [if_neg hps] at hp
          by_cases h1 : p ∈ gridCells M N ∧ p ∉ s :: steps ∧ oc p = true
          · rw [if_pos h1] at hp; exact absurd hp (by decide)
          · rw [if_neg h1] at hp
            by_cases h2 : p ∈ s :: steps
            · rw [if_pos h2] at hp; exact absurd hp (by decide)
            · rw [if_neg h2] at hp; exact absurd hp (by decide)
    have F4 : ∀ p, genMap3 M N oc s e p = 'E' → p = e := by
      intro p hp
      rw [hG3 p] at hp
      by_cases hpe : p = e
      · exact hpe
      · rw [if_neg hpe] at hp
        by_cases hps : p = s
        · rw [if_pos hps] at hp; exact absurd hp (by decide)
        · rw [if_neg hps] at hp
          by_cases h1 : p ∈ gridCells M N ∧ p ∉ s :: steps ∧ oc p = true
          · rw [if_pos h1] at hp; exact absurd hp (by decide)
          · rw [if_neg h1] at hp
            by_cases h2 : p ∈ s :: steps
            · rw [if_pos h2] at hp; exact absurd hp (by decide)
            · rw [if_neg h2] at hp; exact absurd hp (by decide)
    have F5 : ∀ p ∈ s :: steps, genMap3 M N oc s e p ≠ 'X' := by
      intro p hp
      rw [hG3 p]
      by_cases hpe : p = e
      · rw [if_pos hpe]; decide
      · rw [if_neg hpe]
        by_cases hps : p = s
        · rw [if_pos hps]; decide
        · rw [if_neg hps]
          by_cases h1 : p ∈ gridCells M N ∧ p ∉ s :: steps ∧ oc p = true
          · rw [if_pos h1]; decide
          · rw [if_neg h1, if_pos hp]; decide
    obtain ⟨hsound, hcomplete⟩ := floodResult_spec (genMap3 M N oc s e) M N s
    have hRF : ∀ x, x ∈ genReach M N oc s e ↔
        x ∈ floodLoop (genMap3 M N oc s e) M N (M * N + 2) [s] [s] [] := by
      intro x
      rw [genReach]
    have hsRF : s ∈ genReach M N oc s e := by
      rw [hRF]
      exact hcomplete s ⟨0, [], trivial, rfl, rfl⟩
    have hreach3e : Reachable (floodCtx (genMap3 M N oc s e) M N) s e := by
      refine ⟨steps.length, steps, ?_, hlastO, rfl⟩
      refine ValidSeq_mono _ _ steps s hvO ?_
      intro q hq
      rw [passable_floodCtx]
      have hqO := ValidSeq_passable _ steps s hvO q hq
      rw [passable_open] at hqO
      exact ⟨hqO, F5 q (List.mem_cons_of_mem s hq)⟩
    have heRF : e ∈ genReach M N oc s e := by
      rw [hRF]
      exact hcomplete e hreach3e
    have hG4 : ∀ p, genMap4 M N oc s e p
        = if p ∈ gridCells M N ∧ p ∉ genReach M N oc s e then 'X'
          else genMap3 M N oc s e p := by
      intro p
      unfold genMap4 pruneGrid
      rw [prune_fold_val]
    have hG4s : genMap4 M N oc s e s = 'P' := by
      rw [hG4 s, if_neg (fun h => h.2 hsRF)]
      exact F1
    have hG4e : genMap4 M N oc s e e = 'E' := by
      rw [hG4 e, if_neg (fun h => h.2 heRF)]
      exact F2
    have hfilterP : (cellsOf M N).filter (fun p => genMap4 M N oc s e p = 'P') = {s} := by
      apply Finset.ext
      intro p
      rw [Finset.mem_filter, Finset.mem_singleton]
      constructor
      · rintro ⟨_, hpP⟩
        rw [hG4 p] at hpP
        by_cases hcondp : p ∈ gridCells M N ∧ p ∉ genReach M N oc s e
        · rw [if_pos hcondp] at hpP; exact absurd hpP (by decide)
        · rw [if_neg hcondp] at hpP; exact F3 p hpP
      · rintro rfl
        exact ⟨(mem_cellsOf M N p).mpr hsB, hG4s⟩
    have hfilterE : (cellsOf M N).filter (fun p => genMap4 M N oc s e p = 'E') = {e} := by
      apply Finset.ext
      intro p
      rw [Finset.mem_filter, Finset.mem_singleton]
      constructor
      · rintro ⟨_, hpE⟩
        rw [hG4 p] at hpE
        by_cases hcondp : p ∈ gridCells M N ∧ p ∉ genReach M N oc s e
        · rw [if_pos hcondp] at hpE; exact absurd hpE (by decide)
        · rw [if_neg hcondp] at hpE; exact F4 p hpE
      · rintro rfl
        exact ⟨(mem_cellsOf M N p).mpr heB, hG4e⟩
    refine ⟨by rw [hfilterP]; exact Finset.card_singleton s,
      by rw [hfilterE]; exact Finset.card_singleton e, hG4s, hG4e, ?_⟩
    intro p hpc hpX
    have hpRF : p ∈ genReach M N oc s e := by
      by_contra hn
      apply hpX
      rw [hG4 p,
        if_pos ⟨(mem_gridCells M N p).mpr ((mem_cellsOf M N p).mp hpc), hn⟩]
    have hreach3 : Reachable (floodCtx (genMap3 M N oc s e) M N) s p := by
      exact hsound p ((hRF p).mp hpRF)
    obtain ⟨n, l, hv3, hl3, hn3⟩ := hreach3
    have hcells : ∀ q ∈ l, q ∈ genReach M N oc s e := by
      intro q hq
      rw [hRF]
      exact hcomplete q (mem_walk_reachable _ l s q hv3 hq)
    have hsamepass : ∀ q ∈ l, (floodCtx (genMap4 M N oc s e) M N).passable q = true := by
      intro q hq
      have hp3 := ValidSeq_passable _ l s hv3 q hq
      rw [passable_floodCtx] at hp3 ⊢
      refine ⟨hp3.1, ?_⟩
      rw [hG4 q, if_neg (fun h => h.2 (hcells q hq))]
      exact hp3.2
    exact ⟨n, l, ValidSeq_mono _ _ l s hv3 hsamepass, hl3, hn3⟩

/-- Counterexample to C2 as stated: with `M = N = 1` (both positive) all
four `randint` draws are forced to `0`, so start and exit coincide; the
`'E'` write of step 5 overwrites the `'P'` written at the same cell, and
the returned 1x1 grid contains no `'P'` cell at all. -/
theorem C2_single_cell_counterexample :
    ((1 : Nat) ≤ 1 ∧ (0 : Nat) ≤ 1 / 4 ∧ 1 * 3 / 4 ≤ (0 : Nat) ∧ (0 : Nat) ≤ 1 - 1)
    ∧ (generate_random_map 1 1 0 0 0 0 (fun _ => true)).1 ((0 : Int), (0 : Int)) = 'E'
    ∧ ((cellsOf 1 1).filter fun p =>
        (generate_random_map 1 1 0 0 0 0 (fun _ => true)).1 p = 'P').card = 0 := by
  decide

/-- C2 (amended): for positive `M`, `N` with `(M, N) ≠ (1, 1)`, every
outcome of the `randint` draws within their ranges and every outcome of
the wall-density draws, `generate_random_map(M, N, wall_density)` returns
a grid with exactly one `'P'` cell (at the drawn start) and exactly one
`'E'` cell (at the drawn exit), in which every non-`'X'` cell is
reachable from the `'P'` cell via 4-connected steps over non-`'X'`
cells.  (For `M = N = 1` the start and exit draws coincide and the `'P'`
marker is overwritten, so the original claim fails there.) -/
theorem C2_generate_random_map (M N r1 c1 r2 c2 : Nat) (open_choice : Pos → Bool)
    (hM : 1 ≤ M) (hN : 1 ≤ N) (hMN : ¬(M = 1 ∧ N = 1))
    (hr1 : r1 ≤ M / 4) (hc1 : c1 ≤ N / 4)
    (hr2 : M * 3 / 4 ≤ r2) (hr2M : r2 ≤ M - 1)
    (hc2 : N * 3 / 4 ≤ c2) (hc2N : c2 ≤ N - 1) :
    ((cellsOf M N).filter fun p =>
        (generate_random_map M N r1 c1 r2 c2 open_choice).1 p = 'P').card = 1
    ∧ ((cellsOf M N).filter fun p =>
        (generate_random_map M N r1 c1 r2 c2 open_choice).1 p = 'E').card = 1
    ∧ (generate_random_map M N r1 c1 r2 c2 open_choice).1
        (generate_random_map M N r1 c1 r2 c2 open_choice).2.1 = 'P'
    ∧ (generate_random_map M N r1 c1 r2 c2 open_choice).1
        (generate_random_map M N r1 c1 r2 c2 open_choice).2.2 = 'E'
    ∧ ∀ p ∈ cellsOf M N,
        (generate_random_map M N r1 c1 r2 c2 open_choice).1 p ≠ 'X' →
        Reachable (floodCtx (generate_random_map M N r1 c1 r2 c2 open_choice).1 M N)
          (generate_random_map M N r1 c1 r2 c2 open_choice).2.1 p := by
  have hsB : (0 : Int) ≤ (r1 : Int) ∧ (r1 : Int) < (M : Int)
      ∧ (0 : Int) ≤ (c1 : Int) ∧ (c1 : Int) < (N : Int) := by omega
  have heB : (0 : Int) ≤ (r2 : Int) ∧ (r2 : Int) < (M : Int)
      ∧ (0 : Int) ≤ (c2 : Int) ∧ (c2 : Int) < (N : Int) := by omega
  have hse : (((r1 : Int), (c1 : Int)) : Pos) ≠ ((r2 : Int), (c2 : Int)) := by
    intro h
    have h1 : (r1 : Int) = (r2 : Int) := congrArg Prod.fst h
    have h2 : (c1 : Int) = (c2 : Int) := congrArg Prod.snd h
    have e1 : r1 = r2 := by exact_mod_cast h1
    have e2 : c1 = c2 := by exact_mod_cast h2
    omega
  have hmain := gen_map_main M N open_choice
    ((r1 : Int), (c1 : Int)) ((r2 : Int), (c2 : Int)) hsB heB hse
  rw [generate_random_map_eq M N r1 c1 r2 c2 open_choice]
  exact hmain

/-- Witness for C2: the 2x2 generator with start draw `(0, 0)`, exit draw
`(1, 1)` and every density draw opening its cell. -/
theorem C2_generate_random_map_witness :
    ((cellsOf 2 2).filter fun p =>
        (generate_random_map 2 2 0 0 1 1 (fun _ => true)).1 p = 'P').card = 1
    ∧ ((cellsOf 2 2).filter fun p =>
        (generate_random_map 2 2 0 0 1 1 (fun _ => true)).1 p = 'E').card = 1
    ∧ (generate_random_map 2 2 0 0 1 1 (fun _ => true)).1
        (generate_random_map 2 2 0 0 1 1 (fun _ => true)).2.1 = 'P'
    ∧ (generate_random_map 2 2 0 0 1 1 (fun _ => true)).1
        (generate_random_map 2 2 0 0 1 1 (fun _ => true)).2.2 = 'E'
    ∧ ∀ p ∈ cellsOf 2 2,
        (generate_random_map 2 2 0 0 1 1 (fun _ => true)).1 p ≠ 'X' →
        Reachable (floodCtx (generate_random_map 2 2 0 0 1 1 (fun _ => true)).1 2 2)
          (generate_random_map 2 2 0 0 1 1 (fun _ => true)).2.1 p :=
  C2_generate_random_map 2 2 0 0 1 1 (fun _ => true)
    (by decide) (by decide) (by decide) (by decide) (by decide)
    (by decide) (by decide) (by decide) (by decide)

end GridPathAI
